import Mathlib

/-!
Verification development for the Mvn repository (mvar.py, square.py).

The code is embedded shallowly over the real numbers:

* numpy matrices become Mathlib matrices over ℝ (the repository supports
  complex entries, but every claim checked here lives in the real
  fragment; conjugate transpose becomes plain transpose);
* the numpy eigensolvers (numpy.linalg.eigh / eig) are external numeric
  kernels, so each call site is modelled relationally: a run of the code
  carries an arbitrary solver output that satisfies the contract the
  design assumes (Hermitian decomposition returns an orthogonal
  eigenvector matrix that diagonalizes the input);
* floating point is idealized to exact real arithmetic; the explicit
  tolerances of the code (the numpy allclose defaults rtol = 1e-5,
  atol = 1e-8) are kept wherever the code branches on them (compression,
  matrix equality);
* the files helpers.py, matrix.py, automath.py and inplace.py belong to
  the repository but are not available; the few facts needed from them
  are modelled from the spec and marked as such in their doc comments.
-/

open Matrix

/-! ### Basic data model

An Mvar stores a mean (row vector of length n), a variance vector of
length k, and a k × n matrix of axis vectors (rows are axes).  The axis
count k varies along the pipeline, so it is a field of the structure. -/

/-- The stored triple of Mvar (mvar.py, attributes mean / var / vectors).
The ambient dimension n is fixed; the number of retained axes k varies. -/
structure Mv (n : ℕ) where
  k : ℕ
  mean : Fin n → ℝ
  var : Fin k → ℝ
  vectors : Matrix (Fin k) (Fin n) ℝ

/-- Intermediate (var, vectors) pair, the shape returned by square and
consumed by compress. -/
structure SqOut (n : ℕ) where
  k : ℕ
  var : Fin k → ℝ
  vec : Matrix (Fin k) (Fin n) ℝ

/-- Reconstructed covariance of a (var, vectors) pair:
vectors.H * diagflat(var) * vectors (mvar.py, get_cov). -/
def covOf {k n : ℕ} (var : Fin k → ℝ) (vec : Matrix (Fin k) (Fin n) ℝ) :
    Matrix (Fin n) (Fin n) ℝ :=
  vecᵀ * Matrix.diagonal var * vec

/-- Covariance of an Mv (mvar.py, get_cov). -/
def Mv.covM {n : ℕ} (A : Mv n) : Matrix (Fin n) (Fin n) ℝ :=
  covOf A.var A.vectors

/-- diagflat(var ** 0.5) * vectors (mvar.py, property scaled).  The code
raises to the complex power 0.5 + 0j; for the nonnegative variances used
by every theorem below this is the real square root. -/
noncomputable def scaledOf {k n : ℕ} (var : Fin k → ℝ) (vec : Matrix (Fin k) (Fin n) ℝ) :
    Matrix (Fin k) (Fin n) ℝ :=
  Matrix.diagonal (fun i => Real.sqrt (var i)) * vec

/-- scaled view of an Mv. -/
noncomputable def Mv.scaled {n : ℕ} (A : Mv n) : Matrix (Fin A.k) (Fin n) ℝ :=
  scaledOf A.var A.vectors

/-- vectors.H * diagflat(var ** 0.5) * vectors (mvar.py, property
transform), the symmetric square root of the covariance. -/
noncomputable def Mv.transform {n : ℕ} (A : Mv n) : Matrix (Fin n) (Fin n) ℝ :=
  A.vectorsᵀ * Matrix.diagonal (fun i => Real.sqrt (A.var i)) * A.vectors

/-! ### Tolerances -/

/-- Modelled from the spec: helpers.close (file not available) uses the
numpy allclose defaults, rtol = 1e-5 and atol = 1e-8; closeness of a
variance to the reference value zero reduces to absolute value at most
atol. -/
def closeZero (x : ℝ) : Prop := |x| ≤ 1e-8

/-- Modelled from the spec: elementwise numpy allclose closeness of two
reals, |a - b| ≤ atol + rtol * |b| with the defaults rtol = 1e-5,
atol = 1e-8. -/
def rClose (a b : ℝ) : Prop := |a - b| ≤ 1e-8 + 1e-5 * |b|

/-- Modelled from the spec: matrix.py (file not available) equips Matrix
with a tolerance-based equality; two matrices compare equal when they are
elementwise allclose. -/
def MatClose {m n : ℕ} (A B : Matrix (Fin m) (Fin n) ℝ) : Prop :=
  ∀ i j, rClose (A i j) (B i j)

/-! ### Eigensolver contracts -/

/-- Contract of numpy.linalg.eigh assumed by the design (spec section 5):
the eigenvector matrix U has orthonormal columns and diagonalizes A. -/
def IsEigh {m : ℕ} (A : Matrix (Fin m) (Fin m) ℝ) (val : Fin m → ℝ)
    (U : Matrix (Fin m) (Fin m) ℝ) : Prop :=
  Uᵀ * U = 1 ∧ A = U * Matrix.diagonal val * Uᵀ

/-- Contract of the general solver numpy.linalg.eig in the real
diagonalizable fragment: columns of U are eigenvectors. -/
def IsEigGen {m : ℕ} (A : Matrix (Fin m) (Fin m) ℝ) (val : Fin m → ℝ)
    (U : Matrix (Fin m) (Fin m) ℝ) : Prop :=
  A * U = U * Matrix.diagonal val

/-- square.py line 35 selects eigh when Matrix(var) == abs(Matrix(var))
under the tolerant matrix equality. -/
def varAbsClose {k : ℕ} (var : Fin k → ℝ) : Prop :=
  ∀ i, rClose (var i) |var i|

/-- Solver relation used inside square: eigh when the weights are
(close to) nonnegative, the general solver otherwise. -/
def SolverRel {k m : ℕ} (var : Fin k → ℝ) (A : Matrix (Fin m) (Fin m) ℝ)
    (val : Fin m → ℝ) (U : Matrix (Fin m) (Fin m) ℝ) : Prop :=
  (varAbsClose var → IsEigh A val U) ∧ (¬ varAbsClose var → IsEigGen A val U)

/-! ### square (square.py) -/

/-- Output of the reduced-rank branch of square (square.py lines 49-57):
with W = diagflat(var) * V and Xcov = W * V.H, the returned variances are
the diagonal entries d of Xcov (note: not the eigenvalues Xval, which the
code computes and discards), and row i of the returned vectors is row i
of Xvec.H * W rescaled by d i ** -0.5. -/
noncomputable def squareReducedOut {k n : ℕ} (V : Matrix (Fin k) (Fin n) ℝ)
    (var : Fin k → ℝ) (U : Matrix (Fin k) (Fin k) ℝ) : SqOut n :=
  let W := Matrix.diagonal var * V
  let d : Fin k → ℝ := fun i => (W * Vᵀ) i i
  ⟨k, d, Matrix.of fun i j => (Real.sqrt (d i))⁻¹ * ((Uᵀ * W) i j)⟩

/-- Relational semantics of square(vectors, var) (square.py).  The run
nondeterministically uses any solver output satisfying the contract.
Branches follow the code: degenerate shapes return an empty pair; k ≥ n
eigendecomposes V.H * W directly and returns (val, U.H); k < n takes the
reduced-rank branch. -/
def SquareRel {k n : ℕ} (V : Matrix (Fin k) (Fin n) ℝ) (var : Fin k → ℝ)
    (out : SqOut n) : Prop :=
  if k = 0 ∨ n = 0 then out.k = 0
  else if n ≤ k then
    ∃ val U, SolverRel var (Vᵀ * (Matrix.diagonal var * V)) val U ∧
      out = ⟨n, val, Uᵀ⟩
  else
    ∃ (val : Fin k → ℝ) (U : Matrix (Fin k) (Fin k) ℝ),
      SolverRel var ((Matrix.diagonal var * V) * Vᵀ) val U ∧
      out = squareReducedOut V var U

/-! ### compress (mvar.py, do_compress) -/

/-- Relational semantics of do_compress: keep exactly the rows whose
variance is not close to zero, in some order that is ascending in
variance (the sort itself lives in helpers.sortrows, modelled from the
spec: survivors are sorted by ascending variance). -/
def CompressRel {n : ℕ} (a b : SqOut n) : Prop :=
  ∃ e : Fin b.k → Fin a.k,
    Function.Injective e ∧
    (∀ p, ¬ closeZero (a.var (e p))) ∧
    (∀ i, ¬ closeZero (a.var i) → ∃ p, e p = i) ∧
    (∀ p q, p ≤ q → a.var (e p) ≤ a.var (e q)) ∧
    b.var = (fun p => a.var (e p)) ∧
    b.vec = Matrix.of (fun p j => a.vec (e p) j)

/-! ### Constructor (mvar.py, Mvar.__init__) -/

/-- Relational semantics of the constructor on concrete arguments: store
the triple, optionally run do_square (which calls
square(self.scaled), i.e. square with the default all-ones weights on
the scaled matrix), optionally run do_compress. -/
def ConstructRel {j n : ℕ} (varIn : Fin j → ℝ)
    (vecIn : Matrix (Fin j) (Fin n) ℝ) (meanIn : Fin n → ℝ)
    (doSq doCp : Bool) (out : Mv n) : Prop :=
  ∃ s1 s2 : SqOut n,
    (if doSq then SquareRel (scaledOf varIn vecIn) (fun _ => 1) s1
     else s1 = ⟨j, varIn, vecIn⟩) ∧
    (if doCp then CompressRel s1 s2 else s2 = s1) ∧
    out = ⟨s2.k, meanIn, s2.var, s2.vec⟩

/-! ### Alternate constructors and operators (mvar.py) -/

/-- Relational semantics of Mvar.from_cov: assert the covariance is
(tolerantly) Hermitian, eigendecompose it, construct with do_square=False
and do_compress left at its default True. -/
def FromCovRel {n : ℕ} (c : Matrix (Fin n) (Fin n) ℝ) (meanIn : Fin n → ℝ)
    (out : Mv n) : Prop :=
  MatClose c cᵀ ∧
  ∃ val U, IsEigh c val U ∧ ConstructRel val Uᵀ meanIn false true out

/-- Relational semantics of multiplying an Mvar by a matrix
(mvar.py, _multipliers[Matrix]): Mvar(mean = mean * M,
vectors = scaled * M) with var left at its default (all ones) and
do_square, do_compress left at their default True. -/
def MulMatRel {n m : ℕ} (A : Mv n) (M : Matrix (Fin n) (Fin m) ℝ)
    (out : Mv m) : Prop :=
  ConstructRel (fun _ => (1 : ℝ)) (A.scaled * M) (Matrix.vecMul A.mean M)
    true true out

/-- The transform built by Mvar.__pow__:
vectors.H * diagflat(var ** ((power - 1) / 2)) * vectors.  The code uses
the complex power; on the positive variances of every theorem below the
real power (Real.rpow) agrees with it. -/
noncomputable def powTransform {n : ℕ} (A : Mv n) (p : ℝ) : Matrix (Fin n) (Fin n) ℝ :=
  A.vectorsᵀ * Matrix.diagonal (fun i => A.var i ^ ((p - 1) / 2)) * A.vectors

/-- Relational semantics of Mvar.__pow__: build the transform and
right-multiply the Mvar by it (self * transform). -/
def PowRel {n : ℕ} (A : Mv n) (p : ℝ) (out : Mv n) : Prop :=
  MulMatRel A (powTransform A p) out

/-- Relational semantics of Mvar * Mvar (mvar.py, __mul__ with _rconvert):
the right operand is converted to its transform matrix, discarding its
mean, and the product proceeds as Mvar * matrix. -/
def MulMvarRel {n : ℕ} (A B : Mv n) (out : Mv n) : Prop :=
  MulMatRel A B.transform out

/-- Relational semantics of Mvar.__add__:
from_cov(mean = meanA + meanB, cov = covA + covB). -/
def AddRel {n : ℕ} (A B : Mv n) (out : Mv n) : Prop :=
  FromCovRel (A.covM + B.covM) (A.mean + B.mean) out

/-- Modelled from the spec: Mvar.blend delegates to helpers.paralell
(file not available); per the spec the blend of two operands is computed
purely via the invert/power/add primitives as (A**-1 + B**-1)**-1. -/
def BlendRel {n : ℕ} (A B : Mv n) (out : Mv n) : Prop :=
  ∃ ia ib s : Mv n,
    PowRel A (-1) ia ∧ PowRel B (-1) ib ∧ AddRel ia ib s ∧ PowRel s (-1) out

/-- Relational semantics of the in-place mutation performed by
Mvar.__pos__ (mvar.py): self.do_square() replaces the stored
(var, vectors) with square(self.scaled) before a copy is returned; the
mean is untouched and no compression happens. -/
def PosRel {n : ℕ} (A : Mv n) (after : Mv n) : Prop :=
  ∃ s : SqOut n,
    SquareRel A.scaled (fun _ => 1) s ∧
    after = ⟨s.k, A.mean, s.var, s.vec⟩

/-! ### sample (mvar.py, Mvar.sample) -/

/-- Relational semantics of Mvar.sample for a square (k = n) Mvar, with
the standard-normal draw z passed in explicitly: the assert requires all
variances strictly positive, and the returned data is
z * scaled.T + mean (broadcast over rows). -/
def SampleRel {n m : ℕ} (mean : Fin n → ℝ) (var : Fin n → ℝ)
    (vectors : Matrix (Fin n) (Fin n) ℝ) (z : Matrix (Fin m) (Fin n) ℝ)
    (out : Matrix (Fin m) (Fin n) ℝ) : Prop :=
  (∀ i, 0 < var i) ∧
  out = z * (scaledOf var vectors)ᵀ + Matrix.of (fun _ j => mean j)

/-! ### from_data (mvar.py, Mvar.from_data) -/

/-- Column mean of the data (numpy.mean(data, axis=0)). -/
noncomputable def fromDataMean {N n : ℕ} (data : Matrix (Fin N) (Fin n) ℝ) : Fin n → ℝ :=
  fun j => (∑ i, data i j) / N

/-- The centered data array.  The code performs data -= mean, mutating the
array supplied by the caller in place; this is also the final state of
that array after from_data returns. -/
noncomputable def fromDataCentered {N n : ℕ} (data : Matrix (Fin N) (Fin n) ℝ) :
    Matrix (Fin N) (Fin n) ℝ :=
  Matrix.of fun i j => data i j - fromDataMean data j

/-- The divisor used for the covariance: sample count if bias else
sample count - 1 (natural subtraction). -/
def fromDataDivisor (bias : Bool) (N : ℕ) : ℕ :=
  if bias then N else N - 1

/-- The covariance computed by from_data: (data.H * data) / divisor on the
centered data.  Division is total in this real-number model (numpy
produces inf/nan with a warning, not an exception, when the divisor is
zero). -/
noncomputable def fromDataCov {N n : ℕ} (bias : Bool) (data : Matrix (Fin N) (Fin n) ℝ) :
    Matrix (Fin n) (Fin n) ℝ :=
  ((fromDataDivisor bias N : ℝ))⁻¹ •
    ((fromDataCentered data)ᵀ * fromDataCentered data)

/-! ### stack (mvar.py, Mvar.stack) -/

/-- Modelled from the spec: the intended stacked axis-vector matrix of
Mvar.stack, the diagonal block matrix of the operands (helpers.diagstack
is not available; the spec describes shape-broadcast diagonal
stacking). -/
def stackVectors {n1 n2 : ℕ} (A : Mv n1) (B : Mv n2) :
    Matrix (Fin (A.k + B.k)) (Fin (n1 + n2)) ℝ :=
  Matrix.reindex finSumFinEquiv finSumFinEquiv
    (Matrix.fromBlocks A.vectors 0 0 B.vectors)

/-- Modelled from the spec: the evidently intended variance argument of
Mvar.stack, the concatenation of the operands own variance vectors (the
source expression "mvar.var for var in mvars" iterates the wrong name and
references an unbound variable). -/
def stackVar {n1 n2 : ℕ} (A : Mv n1) (B : Mv n2) : Fin (A.k + B.k) → ℝ :=
  Fin.append A.var B.var

/-- The concatenated mean of Mvar.stack. -/
def stackMean {n1 n2 : ℕ} (A : Mv n1) (B : Mv n2) : Fin (n1 + n2) → ℝ :=
  Fin.append A.mean B.mean

/-- The Mvar equality (mvar.py, __eq__): compares means and reconstructed
covariances using the tolerance-based matrix equality of matrix.py. -/
def MvClose {n : ℕ} (A B : Mv n) : Prop :=
  (∀ j, rClose (A.mean j) (B.mean j)) ∧ MatClose A.covM B.covM

/-- An eigenvalue of a square real matrix, witnessed by a nonzero real
eigenvector. -/
def IsEigOf {m : ℕ} (A : Matrix (Fin m) (Fin m) ℝ) (mu : ℝ) : Prop :=
  ∃ x : Fin m → ℝ, x ≠ 0 ∧ A.mulVec x = mu • x

/-! ### Helper lemmas: covariance algebra -/

lemma covOf_apply {k n : ℕ} (var : Fin k → ℝ) (vec : Matrix (Fin k) (Fin n) ℝ)
    (x y : Fin n) : covOf var vec x y = ∑ p, var p * vec p x * vec p y := by
  unfold covOf
  rw [Matrix.mul_apply]
  refine Finset.sum_congr rfl fun p _ => ?_
  rw [Matrix.mul_diagonal, Matrix.transpose_apply]
  ring

lemma covOf_transpose {k n : ℕ} (var : Fin k → ℝ)
    (vec : Matrix (Fin k) (Fin n) ℝ) : (covOf var vec)ᵀ = covOf var vec := by
  unfold covOf
  rw [Matrix.transpose_mul, Matrix.transpose_mul, Matrix.diagonal_transpose,
    Matrix.transpose_transpose, Matrix.mul_assoc]

lemma sandwich_mul {k n : ℕ} (V : Matrix (Fin k) (Fin n) ℝ)
    (hV2 : V * Vᵀ = 1) (a b : Fin k → ℝ) :
    (Vᵀ * Matrix.diagonal a * V) * (Vᵀ * Matrix.diagonal b * V) =
      Vᵀ * Matrix.diagonal (fun i => a i * b i) * V := by
  have h : Matrix.diagonal a * (V * (Vᵀ * (Matrix.diagonal b * V))) =
      Matrix.diagonal (fun i => a i * b i) * V := by
    rw [← Matrix.mul_assoc V Vᵀ, hV2, Matrix.one_mul, ← Matrix.mul_assoc,
      Matrix.diagonal_mul_diagonal]
  calc (Vᵀ * Matrix.diagonal a * V) * (Vᵀ * Matrix.diagonal b * V)
      = Vᵀ * (Matrix.diagonal a * (V * (Vᵀ * (Matrix.diagonal b * V)))) := by
        simp only [Matrix.mul_assoc]
    _ = Vᵀ * Matrix.diagonal (fun i => a i * b i) * V := by
        rw [h, Matrix.mul_assoc]

lemma diag_mul_sandwich {k n : ℕ} (V : Matrix (Fin k) (Fin n) ℝ)
    (hV2 : V * Vᵀ = 1) (g b : Fin k → ℝ) :
    (Matrix.diagonal g * V) * (Vᵀ * Matrix.diagonal b * V) =
      Matrix.diagonal (fun i => g i * b i) * V := by
  calc (Matrix.diagonal g * V) * (Vᵀ * Matrix.diagonal b * V)
      = Matrix.diagonal g * (V * Vᵀ) * (Matrix.diagonal b * V) := by
        simp only [Matrix.mul_assoc]
    _ = Matrix.diagonal (fun i => g i * b i) * V := by
        rw [hV2, Matrix.mul_one, ← Matrix.mul_assoc, Matrix.diagonal_mul_diagonal]

lemma scaled_gram {k n : ℕ} (var : Fin k → ℝ) (vec : Matrix (Fin k) (Fin n) ℝ)
    (h : ∀ i, 0 ≤ var i) :
    (scaledOf var vec)ᵀ * scaledOf var vec = covOf var vec := by
  unfold scaledOf covOf
  rw [Matrix.transpose_mul, Matrix.diagonal_transpose, Matrix.mul_assoc,
    ← Matrix.mul_assoc (Matrix.diagonal _), Matrix.diagonal_mul_diagonal,
    ← Matrix.mul_assoc]
  have hdd : Matrix.diagonal (fun i => Real.sqrt (var i) * Real.sqrt (var i)) =
      Matrix.diagonal var :=
    congrArg Matrix.diagonal (funext fun i => Real.mul_self_sqrt (h i))
  rw [hdd]

lemma scaled_gram_flip {k n : ℕ} (var : Fin k → ℝ)
    (vec : Matrix (Fin k) (Fin n) ℝ) (hV2 : vec * vecᵀ = 1) (h : ∀ i, 0 ≤ var i) :
    scaledOf var vec * (scaledOf var vec)ᵀ = Matrix.diagonal var := by
  unfold scaledOf
  rw [Matrix.transpose_mul, Matrix.diagonal_transpose, Matrix.mul_assoc,
    ← Matrix.mul_assoc vec, hV2, Matrix.one_mul, Matrix.diagonal_mul_diagonal]
  exact congrArg Matrix.diagonal (funext fun i => Real.mul_self_sqrt (h i))

lemma gram_flip_apply {k n : ℕ} (B : Matrix (Fin k) (Fin n) ℝ) (i : Fin k) :
    (B * Bᵀ) i i = ∑ j, B i j ^ 2 := by
  rw [Matrix.mul_apply]
  refine Finset.sum_congr rfl fun j _ => ?_
  rw [Matrix.transpose_apply, sq]

lemma matClose_refl {m n : ℕ} (A : Matrix (Fin m) (Fin n) ℝ) : MatClose A A := by
  intro i j
  unfold rClose
  rw [sub_self, abs_zero]
  positivity

lemma varAbsClose_ones {k : ℕ} : varAbsClose (fun _ : Fin k => (1 : ℝ)) := by
  intro i
  unfold rClose
  norm_num

lemma solverRel_ones {k m : ℕ} {A : Matrix (Fin m) (Fin m) ℝ}
    {val : Fin m → ℝ} {U : Matrix (Fin m) (Fin m) ℝ}
    (h : SolverRel (fun _ : Fin k => (1 : ℝ)) A val U) : IsEigh A val U :=
  h.1 varAbsClose_ones

/-! ### Helper lemmas: eigenvalues -/

lemma dotProduct_self_pos {n : ℕ} {x : Fin n → ℝ} (hx : x ≠ 0) : 0 < x ⬝ᵥ x := by
  obtain ⟨j, hj⟩ : ∃ j, x j ≠ 0 := by rwa [Function.ne_iff] at hx
  unfold Matrix.dotProduct
  exact Finset.sum_pos' (fun i _ => mul_self_nonneg (x i))
    ⟨j, Finset.mem_univ j, mul_self_pos.mpr hj⟩

lemma dotProduct_self_nonneg {n : ℕ} (x : Fin n → ℝ) : 0 ≤ x ⬝ᵥ x :=
  Finset.sum_nonneg fun i _ => mul_self_nonneg (x i)

lemma isEigh_flip {m : ℕ} {A : Matrix (Fin m) (Fin m) ℝ} {val : Fin m → ℝ}
    {U : Matrix (Fin m) (Fin m) ℝ} (h : IsEigh A val U) : U * Uᵀ = 1 :=
  Matrix.mul_eq_one_comm.mp h.1

lemma isEigh_isEigOf {m : ℕ} {A : Matrix (Fin m) (Fin m) ℝ} {val : Fin m → ℝ}
    {U : Matrix (Fin m) (Fin m) ℝ} (h : IsEigh A val U) (i : Fin m) :
    IsEigOf A (val i) := by
  obtain ⟨hU, hA⟩ := h
  refine ⟨fun j => U j i, ?_, ?_⟩
  · intro hx
    have h1 : ((1 : Matrix (Fin m) (Fin m) ℝ)) i i = 0 := by
      rw [← hU, Matrix.mul_apply]
      refine Finset.sum_eq_zero fun j _ => ?_
      have hz : U j i = 0 := congrFun hx j
      simp [Matrix.transpose_apply, hz]
    simp [Matrix.one_apply] at h1
  · have hcol : Uᵀ.mulVec (fun j => U j i) =
        fun p => (1 : Matrix (Fin m) (Fin m) ℝ) p i := by
      funext p
      rw [← hU, Matrix.mul_apply]
      simp [Matrix.mulVec, Matrix.dotProduct]
    have hassoc : A.mulVec (fun j => U j i) =
        U.mulVec ((Matrix.diagonal val).mulVec
          (Uᵀ.mulVec (fun j => U j i))) := by
      rw [Matrix.mulVec_mulVec, Matrix.mulVec_mulVec, ← hA]
    rw [hassoc, hcol]
    have hd : (Matrix.diagonal val).mulVec
        (fun p => (1 : Matrix (Fin m) (Fin m) ℝ) p i) =
        fun p => if p = i then val i else 0 := by
      funext p
      rw [Matrix.mulVec_diagonal]
      by_cases hpi : p = i
      · subst hpi
        simp [Matrix.one_apply]
      · simp [Matrix.one_apply, hpi]
    rw [hd]
    funext q
    simp only [Matrix.mulVec, Matrix.dotProduct, mul_ite, mul_zero,
      Finset.sum_ite_eq', Finset.mem_univ, if_true, Pi.smul_apply,
      smul_eq_mul]
    ring

lemma sandwich_mulVec_eig {k n : ℕ} {V : Matrix (Fin k) (Fin n) ℝ}
    {w : Fin k → ℝ} (hV2 : V * Vᵀ = 1) {mu : ℝ} {x : Fin n → ℝ}
    (hAx : (Vᵀ * Matrix.diagonal w * V).mulVec x = mu • x) :
    (Matrix.diagonal w).mulVec (V.mulVec x) = mu • V.mulVec x := by
  have h1 : V.mulVec ((Vᵀ * Matrix.diagonal w * V).mulVec x) =
      V.mulVec (mu • x) := by rw [hAx]
  rw [Matrix.mulVec_mulVec] at h1
  have h2 : V * (Vᵀ * Matrix.diagonal w * V) = Matrix.diagonal w * V := by
    calc V * (Vᵀ * Matrix.diagonal w * V)
        = (V * Vᵀ) * (Matrix.diagonal w * V) := by simp only [Matrix.mul_assoc]
      _ = Matrix.diagonal w * V := by rw [hV2, Matrix.one_mul]
  rw [h2, ← Matrix.mulVec_mulVec, Matrix.mulVec_smul] at h1
  exact h1

lemma isEigOf_sandwich {k n : ℕ} {V : Matrix (Fin k) (Fin n) ℝ}
    {w : Fin k → ℝ} (hV2 : V * Vᵀ = 1) {mu : ℝ}
    (h : IsEigOf (Vᵀ * Matrix.diagonal w * V) mu) : mu = 0 ∨ ∃ j, mu = w j := by
  obtain ⟨x, hx, hAx⟩ := h
  have hDy := sandwich_mulVec_eig hV2 hAx
  by_cases hy0 : V.mulVec x = 0
  · left
    have h3 : mu • x = 0 := by
      have h4 : (Vᵀ * Matrix.diagonal w * V).mulVec x =
          Vᵀ.mulVec ((Matrix.diagonal w).mulVec (V.mulVec x)) := by
        rw [Matrix.mulVec_mulVec, Matrix.mulVec_mulVec]
      rw [← hAx, h4, hy0, Matrix.mulVec_zero, Matrix.mulVec_zero]
    obtain ⟨j, hj⟩ : ∃ j, x j ≠ 0 := by rwa [Function.ne_iff] at hx
    have h5 : mu * x j = 0 := congrFun h3 j
    exact (mul_eq_zero.mp h5).resolve_right hj
  · right
    obtain ⟨j, hj⟩ : ∃ j, V.mulVec x j ≠ 0 :=
      Function.ne_iff.mp (fun h => hy0 h)
    have h6 : w j * V.mulVec x j = mu * V.mulVec x j := by
      have h7 := congrFun hDy j
      rw [Matrix.mulVec_diagonal] at h7
      simpa using h7
    exact ⟨j, (mul_right_cancel₀ hj h6).symm⟩

lemma isEigOf_sandwich_orth {k n : ℕ} {V : Matrix (Fin k) (Fin n) ℝ}
    {w : Fin k → ℝ} (hV1 : Vᵀ * V = 1) (hV2 : V * Vᵀ = 1) {mu : ℝ}
    (h : IsEigOf (Vᵀ * Matrix.diagonal w * V) mu) : ∃ j, mu = w j := by
  obtain ⟨x, hx, hAx⟩ := h
  have hDy := sandwich_mulVec_eig hV2 hAx
  have hy0 : V.mulVec x ≠ 0 := by
    intro hz
    apply hx
    have h8 : x = Vᵀ.mulVec (V.mulVec x) := by
      rw [Matrix.mulVec_mulVec, hV1, Matrix.one_mulVec]
    rw [h8, hz, Matrix.mulVec_zero]
  obtain ⟨j, hj⟩ : ∃ j, V.mulVec x j ≠ 0 := Function.ne_iff.mp hy0
  have h6 : w j * V.mulVec x j = mu * V.mulVec x j := by
    have h7 := congrFun hDy j
    rw [Matrix.mulVec_diagonal] at h7
    simpa using h7
  exact ⟨j, (mul_right_cancel₀ hj h6).symm⟩

lemma isEigOf_gram_nonneg {k n : ℕ} {B : Matrix (Fin k) (Fin n) ℝ} {mu : ℝ}
    (h : IsEigOf (Bᵀ * B) mu) : 0 ≤ mu := by
  obtain ⟨x, hx, hAx⟩ := h
  have h1 : x ⬝ᵥ ((Bᵀ * B).mulVec x) = (B.mulVec x) ⬝ᵥ (B.mulVec x) := by
    rw [← Matrix.mulVec_mulVec, Matrix.dotProduct_mulVec, Matrix.vecMul_transpose]
  rw [hAx, Matrix.dotProduct_smul, smul_eq_mul] at h1
  have h2 : 0 ≤ mu * (x ⬝ᵥ x) := h1 ▸ dotProduct_self_nonneg (B.mulVec x)
  nlinarith [dotProduct_self_pos hx, h2]

/-! ### Helper lemmas: compress -/

lemma compressRel_var_mem {n : ℕ} {a b : SqOut n} (h : CompressRel a b) :
    ∀ p, ∃ i, b.var p = a.var i := by
  obtain ⟨e, _, _, _, _, hbv, _⟩ := h
  exact fun p => ⟨e p, congrFun hbv p⟩

lemma compressRel_keeps {n : ℕ} {a b : SqOut n} (h : CompressRel a b) :
    ∀ p, ¬ closeZero (b.var p) := by
  obtain ⟨e, _, hkeep, _, _, hbv, _⟩ := h
  intro p
  rw [congrFun hbv p]
  exact hkeep p

lemma compressRel_cov {n : ℕ} {a b : SqOut n} (h : CompressRel a b)
    (hall : ∀ i, ¬ closeZero (a.var i)) :
    covOf b.var b.vec = covOf a.var a.vec := by
  obtain ⟨e, hinj, _, hsurj, _, hbv, hbvec⟩ := h
  have hbij : Function.Bijective e := ⟨hinj, fun i => hsurj i (hall i)⟩
  ext x y
  rw [covOf_apply, covOf_apply]
  have hterm : ∀ p, b.var p * b.vec p x * b.vec p y =
      a.var (e p) * a.vec (e p) x * a.vec (e p) y := by
    intro p
    rw [congrFun hbv p, hbvec]
    simp [Matrix.of_apply]
  rw [Finset.sum_congr rfl fun p _ => hterm p]
  exact Fintype.sum_bijective e hbij _ _ (fun p => rfl)

lemma compressRel_rowOrth {n : ℕ} {a b : SqOut n} (h : CompressRel a b)
    (ho : a.vec * a.vecᵀ = 1) : b.vec * b.vecᵀ = 1 := by
  obtain ⟨e, hinj, _, _, _, _, hbvec⟩ := h
  ext p q
  rw [Matrix.mul_apply]
  have hterm : ∀ j, b.vec p j * b.vecᵀ j q =
      a.vec (e p) j * a.vec (e q) j := by
    intro j
    rw [Matrix.transpose_apply, hbvec]
    simp [Matrix.of_apply]
  rw [Finset.sum_congr rfl fun j _ => hterm j]
  have h2 : ∑ j, a.vec (e p) j * a.vec (e q) j = (a.vec * a.vecᵀ) (e p) (e q) := by
    rw [Matrix.mul_apply]
    exact Finset.sum_congr rfl fun j _ => by rw [Matrix.transpose_apply]
  rw [h2, ho]
  by_cases hpq : p = q
  · subst hpq
    simp [Matrix.one_apply]
  · have hne : e p ≠ e q := fun hc => hpq (hinj hc)
    simp [Matrix.one_apply, hpq, hne]

lemma compressRel_id {n : ℕ} (a : SqOut n) (hall : ∀ i, ¬ closeZero (a.var i))
    (hm : ∀ p q : Fin a.k, p ≤ q → a.var p ≤ a.var q) : CompressRel a a := by
  refine ⟨id, Function.injective_id, hall, fun i _ => ⟨i, rfl⟩, hm, rfl, ?_⟩
  rfl

/-! ### Helper lemmas: square -/

lemma squareRel_cov {k n : ℕ} {V : Matrix (Fin k) (Fin n) ℝ} {out : SqOut n}
    (h : SquareRel V (fun _ => 1) out)
    (hpos : k < n → ∀ i, 0 < (V * Vᵀ) i i) :
    covOf out.var out.vec = Vᵀ * V := by
  unfold SquareRel at h
  by_cases hdeg : k = 0 ∨ n = 0
  · rw [if_pos hdeg] at h
    rcases hdeg with hk | hn
    · haveI : IsEmpty (Fin out.k) := h ▸ inferInstanceAs (IsEmpty (Fin 0))
      haveI : IsEmpty (Fin k) := hk ▸ inferInstanceAs (IsEmpty (Fin 0))
      ext x y
      rw [covOf_apply, Matrix.mul_apply]
      simp
    · haveI : IsEmpty (Fin n) := hn ▸ inferInstanceAs (IsEmpty (Fin 0))
      ext x y
      exact isEmptyElim x
  · rw [if_neg hdeg] at h
    by_cases hnk : n ≤ k
    · rw [if_pos hnk] at h
      obtain ⟨val, U, hS, rfl⟩ := h
      have hE : IsEigh (Vᵀ * V) val U := by
        have := solverRel_ones hS
        rwa [Matrix.diagonal_one, Matrix.one_mul] at this
      show covOf val Uᵀ = Vᵀ * V
      unfold covOf
      rw [Matrix.transpose_transpose, ← hE.2]
    · rw [if_neg hnk] at h
      obtain ⟨val, U, hS, rfl⟩ := h
      have hE : IsEigh (V * Vᵀ) val U := by
        have := solverRel_ones hS
        rwa [Matrix.diagonal_one, Matrix.one_mul] at this
      have hd : ∀ i, 0 < (V * Vᵀ) i i :=
        hpos (lt_of_not_le hnk)
      show covOf (squareReducedOut V (fun _ => 1) U).var
        (squareReducedOut V (fun _ => 1) U).vec = Vᵀ * V
      unfold squareReducedOut
      simp only [Matrix.diagonal_one, Matrix.one_mul]
      have hvec : (Matrix.of fun i j =>
          (Real.sqrt ((V * Vᵀ) i i))⁻¹ * ((Uᵀ * V) i j)) =
          Matrix.diagonal (fun i => (Real.sqrt ((V * Vᵀ) i i))⁻¹) * (Uᵀ * V) := by
        ext i j
        rw [Matrix.of_apply, Matrix.diagonal_mul]
      rw [hvec]
      have hflip : U * Uᵀ = 1 := isEigh_flip hE
      unfold covOf
      rw [Matrix.transpose_mul, Matrix.diagonal_transpose, Matrix.transpose_mul,
        Matrix.transpose_transpose]
      have hmid : Matrix.diagonal (fun i => (Real.sqrt ((V * Vᵀ) i i))⁻¹) *
          Matrix.diagonal (fun i => (V * Vᵀ) i i) *
          Matrix.diagonal (fun i => (Real.sqrt ((V * Vᵀ) i i))⁻¹) = 1 := by
        rw [Matrix.diagonal_mul_diagonal, Matrix.diagonal_mul_diagonal]
        have hfun : (fun i => (Real.sqrt ((V * Vᵀ) i i))⁻¹ * (V * Vᵀ) i i *
            (Real.sqrt ((V * Vᵀ) i i))⁻¹) = fun _ => (1 : ℝ) := by
          funext i
          have hsq : Real.sqrt ((V * Vᵀ) i i) * Real.sqrt ((V * Vᵀ) i i) =
              (V * Vᵀ) i i := Real.mul_self_sqrt (hd i).le
          have hsne : Real.sqrt ((V * Vᵀ) i i) ≠ 0 :=
            ne_of_gt (Real.sqrt_pos.mpr (hd i))
          field_simp
        rw [hfun, Matrix.diagonal_one]
      calc (Vᵀ * U) * Matrix.diagonal (fun i => (Real.sqrt ((V * Vᵀ) i i))⁻¹) *
            Matrix.diagonal (fun i => (V * Vᵀ) i i) *
            (Matrix.diagonal (fun i => (Real.sqrt ((V * Vᵀ) i i))⁻¹) * (Uᵀ * V))
          = (Vᵀ * U) * (Matrix.diagonal (fun i => (Real.sqrt ((V * Vᵀ) i i))⁻¹) *
            Matrix.diagonal (fun i => (V * Vᵀ) i i) *
            Matrix.diagonal (fun i => (Real.sqrt ((V * Vᵀ) i i))⁻¹)) * (Uᵀ * V) := by
            simp only [Matrix.mul_assoc]
        _ = (Vᵀ * U) * (Uᵀ * V) := by rw [hmid, Matrix.mul_one]
        _ = Vᵀ * V := by
            rw [← Matrix.mul_assoc, Matrix.mul_assoc Vᵀ U Uᵀ, hflip,
              Matrix.mul_one]

lemma squareRel_var_mem {k n : ℕ} {V : Matrix (Fin k) (Fin n) ℝ} {out : SqOut n}
    (h : SquareRel V (fun _ => 1) out) :
    ∀ p : Fin out.k, IsEigOf (Vᵀ * V) (out.var p) ∨
      (k < n ∧ ∃ i, out.var p = (V * Vᵀ) i i) := by
  unfold SquareRel at h
  by_cases hdeg : k = 0 ∨ n = 0
  · rw [if_pos hdeg] at h
    haveI : IsEmpty (Fin out.k) := h ▸ inferInstanceAs (IsEmpty (Fin 0))
    exact fun p => isEmptyElim p
  · rw [if_neg hdeg] at h
    by_cases hnk : n ≤ k
    · rw [if_pos hnk] at h
      obtain ⟨val, U, hS, rfl⟩ := h
      have hE : IsEigh (Vᵀ * V) val U := by
        have := solverRel_ones hS
        rwa [Matrix.diagonal_one, Matrix.one_mul] at this
      exact fun p => Or.inl (isEigh_isEigOf hE p)
    · rw [if_neg hnk] at h
      obtain ⟨val, U, hS, rfl⟩ := h
      intro p
      right
      refine ⟨not_le.mp hnk, p, ?_⟩
      show (squareReducedOut V (fun _ => 1) U).var p = (V * Vᵀ) p p
      unfold squareReducedOut
      simp [Matrix.diagonal_one]

lemma squareRel_rowOrth {k n : ℕ} {V : Matrix (Fin k) (Fin n) ℝ} {out : SqOut n}
    (hnk : n ≤ k) (hn : n ≠ 0) (h : SquareRel V (fun _ => 1) out) :
    out.vec * out.vecᵀ = 1 := by
  unfold SquareRel at h
  have hdeg : ¬ (k = 0 ∨ n = 0) := by
    rintro (hk | h0)
    · exact hn (Nat.le_antisymm (hk ▸ hnk) (Nat.zero_le n))
    · exact hn h0
  rw [if_neg hdeg, if_pos hnk] at h
  obtain ⟨val, U, hS, rfl⟩ := h
  have hE : IsEigh (Vᵀ * (Matrix.diagonal (fun _ => (1 : ℝ)) * V)) val U :=
    solverRel_ones hS
  show Uᵀ * (Uᵀ)ᵀ = 1
  rw [Matrix.transpose_transpose]
  exact hE.1

/-! ### Helper lemmas: constructor pipeline -/

lemma constructRel_sem {j n : ℕ} {varIn : Fin j → ℝ}
    {vecIn : Matrix (Fin j) (Fin n) ℝ} {meanIn : Fin n → ℝ} {out : Mv n}
    (h : ConstructRel varIn vecIn meanIn true true out)
    (hpos : j < n → ∀ i,
      0 < (scaledOf varIn vecIn * (scaledOf varIn vecIn)ᵀ) i i)
    (hnd : ∀ mu, (IsEigOf ((scaledOf varIn vecIn)ᵀ * scaledOf varIn vecIn) mu ∨
        (j < n ∧
          ∃ i, mu = (scaledOf varIn vecIn * (scaledOf varIn vecIn)ᵀ) i i)) →
        ¬ closeZero mu) :
    out.mean = meanIn ∧
    out.covM = (scaledOf varIn vecIn)ᵀ * scaledOf varIn vecIn ∧
    (∀ p, IsEigOf ((scaledOf varIn vecIn)ᵀ * scaledOf varIn vecIn) (out.var p) ∨
        (j < n ∧
          ∃ i, out.var p = (scaledOf varIn vecIn * (scaledOf varIn vecIn)ᵀ) i i)) := by
  obtain ⟨s1, s2, hsq, hcp, rfl⟩ := h
  rw [if_pos rfl] at hsq hcp
  have hs1mem := squareRel_var_mem hsq
  have hall : ∀ i, ¬ closeZero (s1.var i) := fun i => hnd _ (hs1mem i)
  have hs2mem : ∀ p, IsEigOf ((scaledOf varIn vecIn)ᵀ * scaledOf varIn vecIn)
      (s2.var p) ∨
      (j < n ∧
        ∃ i, s2.var p = (scaledOf varIn vecIn * (scaledOf varIn vecIn)ᵀ) i i) := by
    intro p
    obtain ⟨i, hi⟩ := compressRel_var_mem hcp p
    rw [hi]
    exact hs1mem i
  refine ⟨rfl, ?_, hs2mem⟩
  show covOf s2.var s2.vec = _
  rw [compressRel_cov hcp hall]
  exact squareRel_cov hsq hpos

lemma constructRel_rowOrth {j n : ℕ} {varIn : Fin j → ℝ}
    {vecIn : Matrix (Fin j) (Fin n) ℝ} {meanIn : Fin n → ℝ} {out : Mv n}
    (hnk : n ≤ j) (hn : n ≠ 0)
    (h : ConstructRel varIn vecIn meanIn true true out) :
    out.vectors * out.vectorsᵀ = 1 := by
  obtain ⟨s1, s2, hsq, hcp, rfl⟩ := h
  rw [if_pos rfl] at hsq hcp
  exact compressRel_rowOrth hcp (squareRel_rowOrth hnk hn hsq)

lemma fromCovRel_sem {n : ℕ} {c : Matrix (Fin n) (Fin n) ℝ}
    {meanIn : Fin n → ℝ} {out : Mv n} (h : FromCovRel c meanIn out)
    (hnd : ∀ mu, IsEigOf c mu → ¬ closeZero mu) :
    out.mean = meanIn ∧ out.covM = c ∧ out.vectors * out.vectorsᵀ = 1 ∧
    ∀ p, IsEigOf c (out.var p) := by
  obtain ⟨hsym, val, U, hE, hc⟩ := h
  obtain ⟨s1, s2, hs1, hcp, rfl⟩ := hc
  rw [if_neg (by simp)] at hs1
  rw [if_pos rfl] at hcp
  subst hs1
  have hall : ∀ i : Fin n, ¬ closeZero (val i) :=
    fun i => hnd _ (isEigh_isEigOf hE i)
  have hcov1 : covOf val Uᵀ = c := by
    unfold covOf
    rw [Matrix.transpose_transpose, ← hE.2]
  refine ⟨rfl, ?_, ?_, ?_⟩
  · show covOf s2.var s2.vec = c
    rw [compressRel_cov hcp hall]
    exact hcov1
  · refine compressRel_rowOrth hcp ?_
    show Uᵀ * (Uᵀ)ᵀ = 1
    rw [Matrix.transpose_transpose]
    exact hE.1
  · intro p
    obtain ⟨i, hi⟩ := compressRel_var_mem hcp p
    show IsEigOf c (s2.var p)
    rw [hi]
    exact isEigh_isEigOf hE i

/-! ### Helper lemmas: retained axis count, identity eigenvalues -/

lemma compressRel_card {n : ℕ} {a b : SqOut n} (h : CompressRel a b)
    (hall : ∀ i, ¬ closeZero (a.var i)) : b.k = a.k := by
  obtain ⟨e, hinj, _, hsurj, _, _, _⟩ := h
  have hbij : Function.Bijective e := ⟨hinj, fun i => hsurj i (hall i)⟩
  have := Fintype.card_of_bijective hbij
  simpa [Fintype.card_fin] using this

lemma constructRel_k_direct {j n : ℕ} {varIn : Fin j → ℝ}
    {vecIn : Matrix (Fin j) (Fin n) ℝ} {meanIn : Fin n → ℝ} {out : Mv n}
    (hnk : n ≤ j) (hn : n ≠ 0)
    (h : ConstructRel varIn vecIn meanIn true true out)
    (hnd : ∀ mu, IsEigOf ((scaledOf varIn vecIn)ᵀ * scaledOf varIn vecIn) mu →
      ¬ closeZero mu) :
    out.k = n := by
  obtain ⟨s1, s2, hsq, hcp, rfl⟩ := h
  rw [if_pos rfl] at hsq hcp
  have hmem := squareRel_var_mem hsq
  have hall : ∀ i, ¬ closeZero (s1.var i) := by
    intro i
    rcases hmem i with h1 | ⟨hlt, _⟩
    · exact hnd _ h1
    · exact absurd hnk (not_le.mpr hlt)
  have hk1 : s1.k = n := by
    unfold SquareRel at hsq
    have hdeg : ¬ (j = 0 ∨ n = 0) := by
      rintro (hj | h0)
      · exact hn (Nat.le_antisymm (hj ▸ hnk) (Nat.zero_le n))
      · exact hn h0
    rw [if_neg hdeg, if_pos hnk] at hsq
    obtain ⟨val, U, _, rfl⟩ := hsq
    rfl
  show s2.k = n
  rw [compressRel_card hcp hall, hk1]

/-! ### Helper lemmas: power step -/

lemma scaledOf_ones {k n : ℕ} (X : Matrix (Fin k) (Fin n) ℝ) :
    scaledOf (fun _ => (1 : ℝ)) X = X := by
  unfold scaledOf
  simp [Real.sqrt_one, Matrix.diagonal_one]

lemma diagRow_gram {k n : ℕ} (g : Fin k → ℝ) (V : Matrix (Fin k) (Fin n) ℝ) :
    (Matrix.diagonal g * V)ᵀ * (Matrix.diagonal g * V) =
      Vᵀ * Matrix.diagonal (fun i => g i * g i) * V := by
  rw [Matrix.transpose_mul, Matrix.diagonal_transpose, Matrix.mul_assoc,
    ← Matrix.mul_assoc (Matrix.diagonal g), Matrix.diagonal_mul_diagonal,
    ← Matrix.mul_assoc]

lemma diagRow_gram_flip {k n : ℕ} (g : Fin k → ℝ) (V : Matrix (Fin k) (Fin n) ℝ)
    (hV2 : V * Vᵀ = 1) :
    (Matrix.diagonal g * V) * (Matrix.diagonal g * V)ᵀ =
      Matrix.diagonal (fun i => g i * g i) := by
  rw [Matrix.transpose_mul, Matrix.diagonal_transpose, Matrix.mul_assoc,
    ← Matrix.mul_assoc V, hV2, Matrix.one_mul, Matrix.diagonal_mul_diagonal]

lemma sqrt_mul_rpow_sq {w : ℝ} (hw : 0 < w) (p : ℝ) :
    (Real.sqrt w * w ^ ((p - 1) / 2)) * (Real.sqrt w * w ^ ((p - 1) / 2)) =
      w ^ p := by
  have h1 : Real.sqrt w * Real.sqrt w = w := Real.mul_self_sqrt hw.le
  have h2 : w ^ ((p - 1) / 2) * w ^ ((p - 1) / 2) = w ^ (p - 1) := by
    rw [← Real.rpow_add hw]
    congr 1
    ring
  calc (Real.sqrt w * w ^ ((p - 1) / 2)) * (Real.sqrt w * w ^ ((p - 1) / 2))
      = (Real.sqrt w * Real.sqrt w) * (w ^ ((p - 1) / 2) * w ^ ((p - 1) / 2)) := by
        ring
    _ = w * w ^ (p - 1) := by rw [h1, h2]
    _ = w ^ (1 : ℝ) * w ^ (p - 1) := by rw [Real.rpow_one]
    _ = w ^ (1 + (p - 1)) := (Real.rpow_add hw 1 (p - 1)).symm
    _ = w ^ p := by
        congr 1
        ring

lemma powRel_sem {n : ℕ} {A : Mv n} {p : ℝ} {out : Mv n}
    (hV2 : A.vectors * A.vectorsᵀ = 1)
    (hw : ∀ i, 0 < A.var i)
    (h : PowRel A p out)
    (hnd : ∀ mu, (IsEigOf (A.vectorsᵀ *
        Matrix.diagonal (fun i => A.var i ^ p) * A.vectors) mu ∨
        (A.k < n ∧ ∃ i, mu = A.var i ^ p)) → ¬ closeZero mu) :
    out.mean = Matrix.vecMul A.mean (powTransform A p) ∧
    out.covM = A.vectorsᵀ * Matrix.diagonal (fun i => A.var i ^ p) * A.vectors ∧
    (∀ q, IsEigOf (A.vectorsᵀ *
        Matrix.diagonal (fun i => A.var i ^ p) * A.vectors) (out.var q) ∨
        (A.k < n ∧ ∃ i, out.var q = A.var i ^ p)) ∧
    (n ≤ A.k → n ≠ 0 → out.k = n) := by
  unfold PowRel MulMatRel at h
  set g : Fin A.k → ℝ :=
    fun i => Real.sqrt (A.var i) * A.var i ^ ((p - 1) / 2) with hg
  have hSC : scaledOf (fun _ => (1 : ℝ)) (A.scaled * powTransform A p) =
      Matrix.diagonal g * A.vectors := by
    rw [scaledOf_ones]
    show A.scaled * powTransform A p = _
    unfold Mv.scaled scaledOf powTransform
    rw [diag_mul_sandwich A.vectors hV2]
  have hgg : (fun i => g i * g i) = fun i => A.var i ^ p := by
    funext i
    exact sqrt_mul_rpow_sq (hw i) p
  have hGram : (scaledOf (fun _ => (1 : ℝ)) (A.scaled * powTransform A p))ᵀ *
      scaledOf (fun _ => (1 : ℝ)) (A.scaled * powTransform A p) =
      A.vectorsᵀ * Matrix.diagonal (fun i => A.var i ^ p) * A.vectors := by
    rw [hSC, diagRow_gram, hgg]
  have hFlip : scaledOf (fun _ => (1 : ℝ)) (A.scaled * powTransform A p) *
      (scaledOf (fun _ => (1 : ℝ)) (A.scaled * powTransform A p))ᵀ =
      Matrix.diagonal (fun i => A.var i ^ p) := by
    rw [hSC, diagRow_gram_flip g A.vectors hV2, hgg]
  have hsem := constructRel_sem h
    (fun _ i => by
      rw [hFlip, Matrix.diagonal_apply_eq]
      exact Real.rpow_pos_of_pos (hw i) p)
    (fun mu hmu => by
      refine hnd mu ?_
      rcases hmu with h1 | ⟨hlt, i, h1⟩
      · rw [hGram] at h1
        exact Or.inl h1
      · rw [hFlip, Matrix.diagonal_apply_eq] at h1
        exact Or.inr ⟨hlt, i, h1⟩)
  obtain ⟨hmean, hcov, hmem⟩ := hsem
  refine ⟨hmean, ?_, ?_, ?_⟩
  · rw [hcov, hGram]
  · intro q
    rcases hmem q with h1 | ⟨hlt, i, h1⟩
    · rw [hGram] at h1
      exact Or.inl h1
    · rw [hFlip, Matrix.diagonal_apply_eq] at h1
      exact Or.inr ⟨hlt, i, h1⟩
  · intro hnk hne
    refine constructRel_k_direct hnk hne h ?_
    intro mu h1
    rw [hGram] at h1
    exact hnd mu (Or.inl h1)

/-! ### Helper lemmas: numeric bounds, diagonal rewriting, inverses -/

lemma diag_congr {k : ℕ} {f g : Fin k → ℝ} (h : ∀ i, f i = g i) :
    Matrix.diagonal f = Matrix.diagonal g :=
  congrArg Matrix.diagonal (funext h)

lemma not_closeZero_of_gt {x : ℝ} (hx : 1e-8 < x) : ¬ closeZero x := by
  unfold closeZero
  rw [abs_of_pos (lt_trans (by norm_num) hx)]
  linarith

lemma inv_gt_small {x : ℝ} (h0 : 0 < x) (hx : x < 1e8) : 1e-8 < x⁻¹ := by
  have h1 : (1e8 : ℝ)⁻¹ < x⁻¹ := inv_strictAnti₀ h0 hx
  have h2 : (1e8 : ℝ)⁻¹ = 1e-8 := by norm_num
  linarith

lemma rpow_neg_one_eq {x : ℝ} (hx : 0 < x) : x ^ (-1 : ℝ) = x⁻¹ := by
  rw [Real.rpow_neg hx.le, Real.rpow_one]

lemma powTransform_eq {n : ℕ} (A : Mv n) (p : ℝ) (f : Fin A.k → ℝ)
    (hf : ∀ i, A.var i ^ ((p - 1) / 2) = f i) :
    powTransform A p = A.vectorsᵀ * Matrix.diagonal f * A.vectors := by
  unfold powTransform
  rw [diag_congr hf]

lemma sandwich_add {k n : ℕ} (V : Matrix (Fin k) (Fin n) ℝ) (a b : Fin k → ℝ) :
    (Vᵀ * Matrix.diagonal a * V) + (Vᵀ * Matrix.diagonal b * V) =
      Vᵀ * Matrix.diagonal (fun i => a i + b i) * V := by
  rw [← Matrix.add_mul, ← Matrix.mul_add, Matrix.diagonal_add]

lemma proj_eq_one {k n : ℕ} {S : Matrix (Fin k) (Fin n) ℝ} {w : Fin k → ℝ}
    {cInv : Matrix (Fin n) (Fin n) ℝ} (hS : S * Sᵀ = 1)
    (hinv : (Sᵀ * Matrix.diagonal w * S) * cInv = 1) :
    Sᵀ * S = 1 := by
  have hPM : (Sᵀ * S) * (Sᵀ * Matrix.diagonal w * S) =
      Sᵀ * Matrix.diagonal w * S := by
    calc (Sᵀ * S) * (Sᵀ * Matrix.diagonal w * S)
        = Sᵀ * (S * Sᵀ) * (Matrix.diagonal w * S) := by
          simp only [Matrix.mul_assoc]
      _ = Sᵀ * (Matrix.diagonal w * S) := by rw [hS, Matrix.mul_one]
      _ = Sᵀ * Matrix.diagonal w * S := by rw [Matrix.mul_assoc]
  calc Sᵀ * S
      = (Sᵀ * S) * ((Sᵀ * Matrix.diagonal w * S) * cInv) := by
        rw [hinv, Matrix.mul_one]
    _ = ((Sᵀ * S) * (Sᵀ * Matrix.diagonal w * S)) * cInv := by
        simp only [Matrix.mul_assoc]
    _ = (Sᵀ * Matrix.diagonal w * S) * cInv := by rw [hPM]
    _ = 1 := hinv

lemma sandwich_inv_transfer {k n : ℕ} {S : Matrix (Fin k) (Fin n) ℝ}
    {w : Fin k → ℝ} {c cInv : Matrix (Fin n) (Fin n) ℝ}
    (hS : S * Sᵀ = 1) (hP : Sᵀ * S = 1)
    (hc : Sᵀ * Matrix.diagonal w * S = c)
    (hinv1 : c * cInv = 1) (_hinv2 : cInv * c = 1)
    (hw : ∀ i, w i ≠ 0) :
    Sᵀ * Matrix.diagonal (fun i => (w i)⁻¹) * S = cInv := by
  have hX : (Sᵀ * Matrix.diagonal (fun i => (w i)⁻¹) * S) * c = 1 := by
    rw [← hc, sandwich_mul S hS]
    rw [diag_congr (fun i => inv_mul_cancel₀ (hw i)), Matrix.diagonal_one,
      Matrix.mul_one, hP]
  calc Sᵀ * Matrix.diagonal (fun i => (w i)⁻¹) * S
      = (Sᵀ * Matrix.diagonal (fun i => (w i)⁻¹) * S) * (c * cInv) := by
        rw [hinv1, Matrix.mul_one]
    _ = ((Sᵀ * Matrix.diagonal (fun i => (w i)⁻¹) * S) * c) * cInv := by
        simp only [Matrix.mul_assoc]
    _ = cInv := by rw [hX, Matrix.one_mul]

/-! ### Claim C2 -/

/-- C2: for every distribution D with invertible covariance (canonical
orthonormal basis, strictly positive per-axis variances, within the range
where the compression tolerance drops nothing), blending D with itself
yields a distribution whose covariance equals the covariance of D divided
by two, and whose mean equals the mean of D exactly. -/
theorem C2_blend_self_halves_cov {n : ℕ} (m : Fin n → ℝ) (d : Fin n → ℝ)
    (V : Matrix (Fin n) (Fin n) ℝ)
    (hV1 : Vᵀ * V = 1) (hV2 : V * Vᵀ = 1)
    (hlow : ∀ i, 1e-7 < d i) (hhigh : ∀ i, d i < 1e7)
    (out : Mv n) (h : BlendRel ⟨n, m, d, V⟩ ⟨n, m, d, V⟩ out) :
    out.covM = (2 : ℝ)⁻¹ • Mv.covM ⟨n, m, d, V⟩ ∧ out.mean = m := by
  obtain ⟨ia, ib, s, hia, hib, hadd, hpow⟩ := h
  have hd0 : ∀ i, 0 < d i := fun i => lt_trans (by norm_num) (hlow i)
  have hrw1 : ∀ i : Fin n, d i ^ (-1 : ℝ) = (d i)⁻¹ :=
    fun i => rpow_neg_one_eq (hd0 i)
  set G1 : Matrix (Fin n) (Fin n) ℝ :=
    Vᵀ * Matrix.diagonal (fun i => (d i)⁻¹) * V with hG1
  have hndD : ∀ mu,
      (IsEigOf (Vᵀ * Matrix.diagonal (fun i => d i ^ (-1 : ℝ)) * V) mu ∨
        (n < n ∧ ∃ i, mu = d i ^ (-1 : ℝ))) → ¬ closeZero mu := by
    intro mu hmu
    have hmu2 : ∃ j, mu = (d j)⁻¹ := by
      rcases hmu with h1 | ⟨hlt, i, h1⟩
      · rw [diag_congr hrw1] at h1
        exact isEigOf_sandwich_orth hV1 hV2 h1
      · exact ⟨i, by rw [h1, hrw1 i]⟩
    obtain ⟨j, hj⟩ := hmu2
    rw [hj]
    exact not_closeZero_of_gt
      (inv_gt_small (hd0 j) (lt_trans (hhigh j) (by norm_num)))
  have hsemA := powRel_sem (A := ⟨n, m, d, V⟩) (p := -1) hV2 hd0 hia hndD
  have hsemB := powRel_sem (A := ⟨n, m, d, V⟩) (p := -1) hV2 hd0 hib hndD
  have hcovA : ia.covM = G1 := by
    rw [hsemA.2.1, hG1, diag_congr hrw1]
  have hcovB : ib.covM = G1 := by
    rw [hsemB.2.1, hG1, diag_congr hrw1]
  have hTD : powTransform (⟨n, m, d, V⟩ : Mv n) (-1) = G1 := by
    rw [powTransform_eq _ _ (fun i => (d i)⁻¹) (fun i => by
      rw [show ((-1 : ℝ) - 1) / 2 = (-1 : ℝ) by norm_num]
      exact hrw1 i), hG1]
  have hmeanA : ia.mean = Matrix.vecMul m G1 := by
    rw [hsemA.1, hTD]
  have hmeanB : ib.mean = Matrix.vecMul m G1 := by
    rw [hsemB.1, hTD]
  -- the sum fed into from_cov by the add step
  have hcS : ia.covM + ib.covM =
      Vᵀ * Matrix.diagonal (fun i => 2 * (d i)⁻¹) * V := by
    rw [hcovA, hcovB, hG1, sandwich_add]
    exact congrArg (fun X => Vᵀ * X * V) (diag_congr fun i => by ring)
  have hndS : ∀ mu, IsEigOf (ia.covM + ib.covM) mu → ¬ closeZero mu := by
    intro mu hmu
    rw [hcS] at hmu
    obtain ⟨j, hj⟩ := isEigOf_sandwich_orth hV1 hV2 hmu
    rw [hj]
    have hinv : 1e-8 < (d j)⁻¹ :=
      inv_gt_small (hd0 j) (lt_trans (hhigh j) (by norm_num))
    refine not_closeZero_of_gt ?_
    nlinarith [hinv, hd0 j]
  have hsemS := fromCovRel_sem hadd hndS
  obtain ⟨hSmean, hScov, hSorth, hSmem⟩ := hsemS
  have hScov2 : s.covM = Vᵀ * Matrix.diagonal (fun i => 2 * (d i)⁻¹) * V := by
    rw [hScov, hcS]
  have hsvar : ∀ p, ∃ j, s.var p = 2 * (d j)⁻¹ := by
    intro p
    have h1 := hSmem p
    rw [hcS] at h1
    exact isEigOf_sandwich_orth hV1 hV2 h1
  have hsvar0 : ∀ p, 0 < s.var p := by
    intro p
    obtain ⟨j, hj⟩ := hsvar p
    rw [hj]
    exact mul_pos two_pos (inv_pos.mpr (hd0 j))
  set cInv : Matrix (Fin n) (Fin n) ℝ :=
    Vᵀ * Matrix.diagonal (fun i => d i / 2) * V with hcInv
  have hinv1 : (Vᵀ * Matrix.diagonal (fun i => 2 * (d i)⁻¹) * V) * cInv = 1 := by
    rw [hcInv, sandwich_mul V hV2,
      diag_congr (fun i => show 2 * (d i)⁻¹ * (d i / 2) = 1 by
        have hne : d i ≠ 0 := (hd0 i).ne'
        field_simp
        try ring), Matrix.diagonal_one, Matrix.mul_one, hV1]
  have hinv2 : cInv * (Vᵀ * Matrix.diagonal (fun i => 2 * (d i)⁻¹) * V) = 1 := by
    rw [hcInv, sandwich_mul V hV2,
      diag_congr (fun i => show d i / 2 * (2 * (d i)⁻¹) = 1 by
        have hne : d i ≠ 0 := (hd0 i).ne'
        field_simp
        try ring), Matrix.diagonal_one, Matrix.mul_one, hV1]
  have hcovMs : s.vectorsᵀ * Matrix.diagonal s.var * s.vectors =
      Vᵀ * Matrix.diagonal (fun i => 2 * (d i)⁻¹) * V := hScov2
  have hP : s.vectorsᵀ * s.vectors = 1 :=
    proj_eq_one hSorth (by rw [hcovMs]; exact hinv1)
  have hndOut : ∀ mu,
      (IsEigOf (s.vectorsᵀ *
        Matrix.diagonal (fun i => s.var i ^ (-1 : ℝ)) * s.vectors) mu ∨
        (s.k < n ∧ ∃ i, mu = s.var i ^ (-1 : ℝ))) → ¬ closeZero mu := by
    intro mu hmu
    have hmu2 : ∃ j, mu = (s.var j)⁻¹ := by
      rcases hmu with h1 | ⟨hlt, i, h1⟩
      · rw [diag_congr (fun i => rpow_neg_one_eq (hsvar0 i))] at h1
        exact isEigOf_sandwich_orth hP hSorth h1
      · exact ⟨i, by rw [h1, rpow_neg_one_eq (hsvar0 i)]⟩
    obtain ⟨j, hj⟩ := hmu2
    obtain ⟨l, hl⟩ := hsvar j
    have h2 : (s.var j)⁻¹ = d l / 2 := by
      rw [hl]
      field_simp
    rw [hj, h2]
    refine not_closeZero_of_gt ?_
    linarith [hlow l]
  have hsemOut := powRel_sem (A := s) (p := -1) hSorth hsvar0 hpow hndOut
  have hsne : ∀ p, s.var p ≠ 0 := fun p => (hsvar0 p).ne'
  have htransfer : s.vectorsᵀ *
      Matrix.diagonal (fun i => (s.var i)⁻¹) * s.vectors = cInv :=
    sandwich_inv_transfer hSorth hP hcovMs hinv1 hinv2 hsne
  constructor
  · -- covariance of the blend
    rw [hsemOut.2.1, diag_congr (fun i => rpow_neg_one_eq (hsvar0 i)), htransfer,
      hcInv]
    show Vᵀ * Matrix.diagonal (fun i => d i / 2) * V =
      (2 : ℝ)⁻¹ • (Vᵀ * Matrix.diagonal d * V)
    rw [diag_congr (fun i => show d i / 2 = ((2 : ℝ)⁻¹ • d) i by
      simp [Pi.smul_apply]
      ring), Matrix.diagonal_smul, Matrix.mul_smul, Matrix.smul_mul]
  · -- mean of the blend
    have hTS : powTransform s (-1) = cInv := by
      rw [powTransform_eq s (-1) (fun i => (s.var i)⁻¹) (fun i => by
        rw [show ((-1 : ℝ) - 1) / 2 = (-1 : ℝ) by norm_num]
        exact rpow_neg_one_eq (hsvar0 i))]
      exact htransfer
    have hG1cInv : G1 * cInv = (2 : ℝ)⁻¹ • (1 : Matrix (Fin n) (Fin n) ℝ) := by
      rw [hG1, hcInv, sandwich_mul V hV2,
        diag_congr (fun i => show (d i)⁻¹ * (d i / 2) = ((2 : ℝ)⁻¹ •
          (fun _ : Fin n => (1 : ℝ))) i by
          have hne : d i ≠ 0 := (hd0 i).ne'
          simp only [Pi.smul_apply, smul_eq_mul, mul_one]
          field_simp
          try ring),
        Matrix.diagonal_smul, Matrix.diagonal_one, Matrix.mul_smul,
        Matrix.smul_mul, Matrix.mul_one, hV1]
    rw [hsemOut.1, hTS, hSmean, hmeanA, hmeanB, Matrix.add_vecMul,
      Matrix.vecMul_vecMul, hG1cInv]
    funext j
    simp only [Pi.add_apply, Matrix.vecMul, Matrix.dotProduct,
      Matrix.smul_apply, Matrix.one_apply, smul_eq_mul, mul_ite, mul_one,
      mul_zero, Finset.sum_ite_eq', Finset.mem_univ, if_true]
    ring

/-! ### One-dimensional concrete-run helpers (used by witnesses) -/

lemma entry_one_mul (A B : Matrix (Fin 1) (Fin 1) ℝ) :
    (A * B) 0 0 = A 0 0 * B 0 0 := by
  rw [Matrix.mul_apply, Fin.sum_univ_one]

lemma mv_one_ext {m1 m2 : Fin 1 → ℝ} {v1 v2 : Fin 1 → ℝ}
    {V1 V2 : Matrix (Fin 1) (Fin 1) ℝ}
    (hm : m1 = m2) (hv : v1 = v2) (hV : V1 = V2) :
    (⟨1, m1, v1, V1⟩ : Mv 1) = ⟨1, m2, v2, V2⟩ := by
  subst hm
  subst hv
  subst hV
  rfl

lemma fun_one_ext {a b : ℝ} (h : a = b) : (fun _ : Fin 1 => a) = ![b] := by
  subst h
  funext j
  have hj : j = 0 := Subsingleton.elim j 0
  subst hj
  simp

lemma squareRel_one (X : Matrix (Fin 1) (Fin 1) ℝ) :
    SquareRel X (fun _ => (1 : ℝ)) ⟨1, fun _ => X 0 0 * X 0 0, 1⟩ := by
  unfold SquareRel
  rw [if_neg (by norm_num), if_pos (le_refl 1)]
  refine ⟨fun _ => X 0 0 * X 0 0, 1,
    ⟨fun _ => ⟨by simp, ?_⟩, fun hc => absurd varAbsClose_ones hc⟩, ?_⟩
  · ext i j
    have hi : i = 0 := Subsingleton.elim i 0
    have hj : j = 0 := Subsingleton.elim j 0
    subst hi
    subst hj
    rw [Matrix.transpose_one, Matrix.mul_one, Matrix.one_mul,
      Matrix.diagonal_apply_eq, entry_one_mul, entry_one_mul]
    simp [Matrix.transpose_apply, Matrix.one_apply_eq, Matrix.diagonal_apply_eq]
  · rw [show (1 : Matrix (Fin 1) (Fin 1) ℝ)ᵀ = 1 from Matrix.transpose_one]

lemma constructRel_one (X : Matrix (Fin 1) (Fin 1) ℝ) (meanIn : Fin 1 → ℝ)
    (hbig : ¬ closeZero (X 0 0 * X 0 0)) :
    ConstructRel (fun _ => (1 : ℝ)) X meanIn true true
      ⟨1, meanIn, fun _ => X 0 0 * X 0 0, 1⟩ := by
  refine ⟨⟨1, fun _ => X 0 0 * X 0 0, 1⟩, ⟨1, fun _ => X 0 0 * X 0 0, 1⟩,
    ?_, ?_, rfl⟩
  · rw [if_pos rfl, scaledOf_ones]
    exact squareRel_one X
  · rw [if_pos rfl]
    exact compressRel_id _ (fun i => hbig) (fun p q _ => le_refl _)

lemma isEigh_one (c : Matrix (Fin 1) (Fin 1) ℝ) :
    IsEigh c (fun _ => c 0 0) 1 := by
  refine ⟨by simp, ?_⟩
  ext i j
  have hi : i = 0 := Subsingleton.elim i 0
  have hj : j = 0 := Subsingleton.elim j 0
  subst hi
  subst hj
  rw [Matrix.transpose_one, Matrix.mul_one, Matrix.one_mul,
    Matrix.diagonal_apply_eq]

lemma matClose_symm_one (c : Matrix (Fin 1) (Fin 1) ℝ) : MatClose c cᵀ := by
  intro i j
  have hi : i = 0 := Subsingleton.elim i 0
  have hj : j = 0 := Subsingleton.elim j 0
  subst hi
  subst hj
  rw [Matrix.transpose_apply]
  unfold rClose
  rw [sub_self, abs_zero]
  positivity

lemma fromCovRel_one (c : Matrix (Fin 1) (Fin 1) ℝ) (meanIn : Fin 1 → ℝ)
    (hbig : ¬ closeZero (c 0 0)) :
    FromCovRel c meanIn ⟨1, meanIn, fun _ => c 0 0, 1⟩ := by
  refine ⟨matClose_symm_one c, fun _ => c 0 0, 1, isEigh_one c,
    ⟨1, fun _ => c 0 0, 1⟩, ⟨1, fun _ => c 0 0, 1⟩, ?_, ?_, rfl⟩
  · rw [if_neg (by simp)]
    rw [show (1 : Matrix (Fin 1) (Fin 1) ℝ)ᵀ = 1 from Matrix.transpose_one]
  · rw [if_pos rfl]
    exact compressRel_id _ (fun i => hbig) (fun p q _ => le_refl _)

/-- Witness for C2: a concrete run of blend on the one-dimensional
distribution with mean 5 and variance 4, yielding variance 2 and mean 5. -/
theorem C2_blend_self_halves_cov_witness :
    BlendRel (⟨1, ![5], ![4], 1⟩ : Mv 1) ⟨1, ![5], ![4], 1⟩
      (⟨1, ![5], ![2], 1⟩ : Mv 1) ∧
    Mv.covM (⟨1, ![5], ![2], 1⟩ : Mv 1) =
      (2 : ℝ)⁻¹ • Mv.covM (⟨1, ![5], ![4], 1⟩ : Mv 1) ∧
    Mv.mean (⟨1, ![5], ![2], 1⟩ : Mv 1) = ![5] := by
  have hT1 : powTransform (⟨1, ![5], ![4], 1⟩ : Mv 1) (-1) =
      Matrix.diagonal (fun _ : Fin 1 => (4 : ℝ)⁻¹) := by
    show (1 : Matrix (Fin 1) (Fin 1) ℝ)ᵀ * Matrix.diagonal _ * 1 = _
    rw [Matrix.transpose_one, Matrix.one_mul, Matrix.mul_one]
    refine diag_congr fun i => ?_
    have hi : i = 0 := Subsingleton.elim i 0
    subst hi
    show (![4] : Fin 1 → ℝ) 0 ^ (((-1 : ℝ) - 1) / 2) = (4 : ℝ)⁻¹
    rw [show (![4] : Fin 1 → ℝ) 0 = (4 : ℝ) from rfl,
      show ((-1 : ℝ) - 1) / 2 = (-1 : ℝ) by norm_num,
      rpow_neg_one_eq (by norm_num)]
  have hsc1 : (⟨1, ![5], ![4], 1⟩ : Mv 1).scaled =
      Matrix.diagonal (fun _ : Fin 1 => (2 : ℝ)) := by
    show scaledOf ![4] 1 = _
    unfold scaledOf
    rw [Matrix.mul_one]
    refine diag_congr fun i => ?_
    have hi : i = 0 := Subsingleton.elim i 0
    subst hi
    show Real.sqrt ((![4] : Fin 1 → ℝ) 0) = 2
    rw [show (![4] : Fin 1 → ℝ) 0 = (4 : ℝ) from rfl,
      show (4 : ℝ) = 2 ^ 2 by norm_num, Real.sqrt_sq (by norm_num)]
  have hX1 : ((⟨1, ![5], ![4], 1⟩ : Mv 1).scaled *
      powTransform (⟨1, ![5], ![4], 1⟩ : Mv 1) (-1)) 0 0 = 1 / 2 := by
    rw [entry_one_mul, hT1, hsc1, Matrix.diagonal_apply_eq,
      Matrix.diagonal_apply_eq]
    norm_num
  have hmean1 : Matrix.vecMul (⟨1, ![5], ![4], 1⟩ : Mv 1).mean
      (powTransform (⟨1, ![5], ![4], 1⟩ : Mv 1) (-1)) = ![5 / 4] := by
    rw [hT1]
    funext j
    have hj : j = 0 := Subsingleton.elim j 0
    subst hj
    show ∑ i, (![5] : Fin 1 → ℝ) i * Matrix.diagonal (fun _ : Fin 1 => (4:ℝ)⁻¹) i 0 = 5 / 4
    rw [Fin.sum_univ_one, Matrix.diagonal_apply_eq]
    norm_num
  have hrun_ia : PowRel (⟨1, ![5], ![4], 1⟩ : Mv 1) (-1)
      ⟨1, ![5 / 4], ![1 / 4], 1⟩ := by
    have h1 := constructRel_one
      ((⟨1, ![5], ![4], 1⟩ : Mv 1).scaled *
        powTransform (⟨1, ![5], ![4], 1⟩ : Mv 1) (-1))
      (Matrix.vecMul (⟨1, ![5], ![4], 1⟩ : Mv 1).mean
        (powTransform (⟨1, ![5], ![4], 1⟩ : Mv 1) (-1)))
      (by
        rw [hX1]
        exact not_closeZero_of_gt (by norm_num))
    have heq :
        (⟨1, Matrix.vecMul (⟨1, ![5], ![4], 1⟩ : Mv 1).mean
          (powTransform (⟨1, ![5], ![4], 1⟩ : Mv 1) (-1)),
          fun _ => ((⟨1, ![5], ![4], 1⟩ : Mv 1).scaled *
            powTransform (⟨1, ![5], ![4], 1⟩ : Mv 1) (-1)) 0 0 *
            ((⟨1, ![5], ![4], 1⟩ : Mv 1).scaled *
            powTransform (⟨1, ![5], ![4], 1⟩ : Mv 1) (-1)) 0 0, 1⟩ : Mv 1) =
        ⟨1, ![5 / 4], ![1 / 4], 1⟩ := by
      refine mv_one_ext hmean1 ?_ rfl
      refine fun_one_ext ?_
      rw [hX1]
      norm_num
    rw [heq] at h1
    exact h1
  have hcov_ia : Mv.covM (⟨1, ![5 / 4], ![1 / 4], 1⟩ : Mv 1) 0 0 = 1 / 4 := by
    show covOf ![1 / 4] 1 0 0 = 1 / 4
    rw [covOf_apply, Fin.sum_univ_one]
    simp [Matrix.one_apply]
  have hrun_add : AddRel (⟨1, ![5 / 4], ![1 / 4], 1⟩ : Mv 1)
      ⟨1, ![5 / 4], ![1 / 4], 1⟩ ⟨1, ![5 / 2], ![1 / 2], 1⟩ := by
    have h1 := fromCovRel_one
      (Mv.covM (⟨1, ![5 / 4], ![1 / 4], 1⟩ : Mv 1) +
        Mv.covM (⟨1, ![5 / 4], ![1 / 4], 1⟩ : Mv 1))
      ((⟨1, ![5 / 4], ![1 / 4], 1⟩ : Mv 1).mean +
        (⟨1, ![5 / 4], ![1 / 4], 1⟩ : Mv 1).mean)
      (by
        rw [Matrix.add_apply, hcov_ia]
        exact not_closeZero_of_gt (by norm_num))
    have heq :
        (⟨1, (⟨1, ![5 / 4], ![1 / 4], 1⟩ : Mv 1).mean +
          (⟨1, ![5 / 4], ![1 / 4], 1⟩ : Mv 1).mean,
          fun _ => (Mv.covM (⟨1, ![5 / 4], ![1 / 4], 1⟩ : Mv 1) +
            Mv.covM (⟨1, ![5 / 4], ![1 / 4], 1⟩ : Mv 1)) 0 0, 1⟩ : Mv 1) =
        ⟨1, ![5 / 2], ![1 / 2], 1⟩ := by
      refine mv_one_ext ?_ ?_ rfl
      · funext j
        have hj : j = 0 := Subsingleton.elim j 0
        subst hj
        show (![5 / 4] : Fin 1 → ℝ) 0 + (![5 / 4] : Fin 1 → ℝ) 0 = 5 / 2
        norm_num
      · refine fun_one_ext ?_
        rw [Matrix.add_apply, hcov_ia]
        norm_num
    rw [heq] at h1
    exact h1
  have hT2 : powTransform (⟨1, ![5 / 2], ![1 / 2], 1⟩ : Mv 1) (-1) =
      Matrix.diagonal (fun _ : Fin 1 => (2 : ℝ)) := by
    show (1 : Matrix (Fin 1) (Fin 1) ℝ)ᵀ * Matrix.diagonal _ * 1 = _
    rw [Matrix.transpose_one, Matrix.one_mul, Matrix.mul_one]
    refine diag_congr fun i => ?_
    have hi : i = 0 := Subsingleton.elim i 0
    subst hi
    show (![1 / 2] : Fin 1 → ℝ) 0 ^ (((-1 : ℝ) - 1) / 2) = (2 : ℝ)
    rw [show (![1 / 2] : Fin 1 → ℝ) 0 = (1 / 2 : ℝ) from rfl,
      show ((-1 : ℝ) - 1) / 2 = (-1 : ℝ) by norm_num,
      rpow_neg_one_eq (by norm_num)]
    norm_num
  have hsc2 : (⟨1, ![5 / 2], ![1 / 2], 1⟩ : Mv 1).scaled =
      Matrix.diagonal (fun _ : Fin 1 => Real.sqrt (1 / 2)) := by
    show scaledOf ![1 / 2] 1 = _
    unfold scaledOf
    rw [Matrix.mul_one]
    exact diag_congr fun i => by
      have hi : i = 0 := Subsingleton.elim i 0
      subst hi
      rfl
  have hX2 : ((⟨1, ![5 / 2], ![1 / 2], 1⟩ : Mv 1).scaled *
      powTransform (⟨1, ![5 / 2], ![1 / 2], 1⟩ : Mv 1) (-1)) 0 0 =
      Real.sqrt (1 / 2) * 2 := by
    rw [entry_one_mul, hT2, hsc2, Matrix.diagonal_apply_eq,
      Matrix.diagonal_apply_eq]
  have hXX2 : (Real.sqrt (1 / 2) * 2) * (Real.sqrt (1 / 2) * 2) = 2 := by
    have h1 : Real.sqrt (1 / 2) * Real.sqrt (1 / 2) = 1 / 2 :=
      Real.mul_self_sqrt (by norm_num)
    nlinarith [h1]
  have hmean2 : Matrix.vecMul (⟨1, ![5 / 2], ![1 / 2], 1⟩ : Mv 1).mean
      (powTransform (⟨1, ![5 / 2], ![1 / 2], 1⟩ : Mv 1) (-1)) = ![(5 : ℝ)] := by
    rw [hT2]
    funext j
    have hj : j = 0 := Subsingleton.elim j 0
    subst hj
    show ∑ i, (![5 / 2] : Fin 1 → ℝ) i *
      Matrix.diagonal (fun _ : Fin 1 => (2 : ℝ)) i 0 = 5
    rw [Fin.sum_univ_one, Matrix.diagonal_apply_eq]
    norm_num
  have hrun_out : PowRel (⟨1, ![5 / 2], ![1 / 2], 1⟩ : Mv 1) (-1)
      ⟨1, ![5], ![2], 1⟩ := by
    have h1 := constructRel_one
      ((⟨1, ![5 / 2], ![1 / 2], 1⟩ : Mv 1).scaled *
        powTransform (⟨1, ![5 / 2], ![1 / 2], 1⟩ : Mv 1) (-1))
      (Matrix.vecMul (⟨1, ![5 / 2], ![1 / 2], 1⟩ : Mv 1).mean
        (powTransform (⟨1, ![5 / 2], ![1 / 2], 1⟩ : Mv 1) (-1)))
      (by
        rw [hX2, hXX2]
        exact not_closeZero_of_gt (by norm_num))
    have heq :
        (⟨1, Matrix.vecMul (⟨1, ![5 / 2], ![1 / 2], 1⟩ : Mv 1).mean
          (powTransform (⟨1, ![5 / 2], ![1 / 2], 1⟩ : Mv 1) (-1)),
          fun _ => ((⟨1, ![5 / 2], ![1 / 2], 1⟩ : Mv 1).scaled *
            powTransform (⟨1, ![5 / 2], ![1 / 2], 1⟩ : Mv 1) (-1)) 0 0 *
            ((⟨1, ![5 / 2], ![1 / 2], 1⟩ : Mv 1).scaled *
            powTransform (⟨1, ![5 / 2], ![1 / 2], 1⟩ : Mv 1) (-1)) 0 0,
          1⟩ : Mv 1) = ⟨1, ![5], ![2], 1⟩ := by
      refine mv_one_ext hmean2 ?_ rfl
      refine fun_one_ext ?_
      rw [hX2, hXX2]
    rw [heq] at h1
    exact h1
  have hrun : BlendRel (⟨1, ![5], ![4], 1⟩ : Mv 1) ⟨1, ![5], ![4], 1⟩
      ⟨1, ![5], ![2], 1⟩ :=
    ⟨⟨1, ![5 / 4], ![1 / 4], 1⟩, ⟨1, ![5 / 4], ![1 / 4], 1⟩,
      ⟨1, ![5 / 2], ![1 / 2], 1⟩, hrun_ia, hrun_ia, hrun_add, hrun_out⟩
  have hconc := C2_blend_self_halves_cov ![5] ![4] 1
    (by rw [Matrix.transpose_one, Matrix.one_mul])
    (by rw [Matrix.transpose_one, Matrix.one_mul])
    (fun i => by
      have hi : i = 0 := Subsingleton.elim i 0
      subst hi
      norm_num)
    (fun i => by
      have hi : i = 0 := Subsingleton.elim i 0
      subst hi
      norm_num)
    ⟨1, ![5], ![2], 1⟩ hrun
  exact ⟨hrun, hconc.1, hconc.2⟩

lemma isEigOf_one {n : ℕ} {mu : ℝ}
    (h : IsEigOf (1 : Matrix (Fin n) (Fin n) ℝ) mu) : mu = 1 := by
  obtain ⟨x, hx, hAx⟩ := h
  rw [Matrix.one_mulVec] at hAx
  obtain ⟨j, hj⟩ := Function.ne_iff.mp hx
  have h1 : x j = mu * x j := congrFun hAx j
  have h2 : (mu - 1) * x j = 0 := by linarith
  rcases mul_eq_zero.mp h2 with h3 | h3
  · linarith
  · exact absurd h3 hj

lemma sandwich_transpose {k n : ℕ} (V : Matrix (Fin k) (Fin n) ℝ)
    (f : Fin k → ℝ) : (Vᵀ * Matrix.diagonal f * V)ᵀ = Vᵀ * Matrix.diagonal f * V := by
  rw [Matrix.transpose_mul, Matrix.transpose_mul, Matrix.diagonal_transpose,
    Matrix.transpose_transpose, Matrix.mul_assoc]

lemma gram_of_mul {k n m : ℕ} (X : Matrix (Fin k) (Fin n) ℝ)
    (M : Matrix (Fin n) (Fin m) ℝ) :
    (X * M)ᵀ * (X * M) = Mᵀ * (Xᵀ * X) * M := by
  rw [Matrix.transpose_mul]
  simp only [Matrix.mul_assoc]

lemma gram_flip_pos_of_row_ne {k n : ℕ} {X : Matrix (Fin k) (Fin n) ℝ}
    {p : Fin k} (h : (fun j => X p j) ≠ 0) : 0 < (X * Xᵀ) p p := by
  rw [gram_flip_apply]
  obtain ⟨j, hj⟩ := Function.ne_iff.mp h
  refine Finset.sum_pos' (fun i _ => sq_nonneg _) ⟨j, Finset.mem_univ j, ?_⟩
  rw [sq]
  exact mul_self_pos.mpr hj

/-! ### Claim C3 -/

/-- C3: for a full-rank distribution A on a canonical orthonormal basis
(positive variances below the compression ceiling), A ** 0 equals
A ** -1 * A in mean and covariance, and the covariance of A ** 0 is the
identity matrix. -/
theorem C3_pow_zero_eq_inv_mul {n : ℕ} (m d : Fin n → ℝ)
    (V : Matrix (Fin n) (Fin n) ℝ)
    (hV1 : Vᵀ * V = 1) (hV2 : V * Vᵀ = 1)
    (hd0 : ∀ i, 0 < d i) (hhigh : ∀ i, d i < 1e7)
    (out0 out1 inv : Mv n)
    (h0 : PowRel ⟨n, m, d, V⟩ 0 out0)
    (hinv : PowRel ⟨n, m, d, V⟩ (-1) inv)
    (hmul : MulMvarRel inv ⟨n, m, d, V⟩ out1) :
    out0.mean = out1.mean ∧ out0.covM = out1.covM ∧ out0.covM = 1 := by
  rcases Nat.eq_zero_or_pos n with hn0 | hn0
  · subst hn0
    refine ⟨funext fun j => isEmptyElim j, ?_, ?_⟩
    · ext i j
      exact isEmptyElim i
    · ext i j
      exact isEmptyElim i
  have hne : n ≠ 0 := hn0.ne'
  -- the zero-power branch
  have hrw0 : ∀ i : Fin n, d i ^ (0 : ℝ) = 1 := fun i => Real.rpow_zero (d i)
  have hGram0 : Vᵀ * Matrix.diagonal (fun i => d i ^ (0 : ℝ)) * V = 1 := by
    rw [diag_congr hrw0, Matrix.diagonal_one, Matrix.mul_one, hV1]
  have hnd0 : ∀ mu,
      (IsEigOf (Vᵀ * Matrix.diagonal (fun i => d i ^ (0 : ℝ)) * V) mu ∨
        (n < n ∧ ∃ i, mu = d i ^ (0 : ℝ))) → ¬ closeZero mu := by
    intro mu hmu
    have h1 : mu = 1 := by
      rcases hmu with h1 | ⟨hlt, _⟩
      · rw [hGram0] at h1
        exact isEigOf_one h1
      · exact absurd hlt (lt_irrefl n)
    rw [h1]
    exact not_closeZero_of_gt (by norm_num)
  have hsem0 := powRel_sem (A := ⟨n, m, d, V⟩) (p := 0) hV2 hd0 h0 hnd0
  have hcov0 : out0.covM = 1 := by
    rw [hsem0.2.1, hGram0]
  have hrwhalf : ∀ i : Fin n, d i ^ (((0 : ℝ) - 1) / 2) =
      (Real.sqrt (d i))⁻¹ := by
    intro i
    rw [show ((0 : ℝ) - 1) / 2 = -(1 / 2 : ℝ) by norm_num,
      Real.rpow_neg (hd0 i).le, ← Real.sqrt_eq_rpow]
  have hT0 : powTransform (⟨n, m, d, V⟩ : Mv n) 0 =
      Vᵀ * Matrix.diagonal (fun i => (Real.sqrt (d i))⁻¹) * V :=
    powTransform_eq _ 0 _ hrwhalf
  have hmean0 : out0.mean =
      Matrix.vecMul m (Vᵀ * Matrix.diagonal (fun i => (Real.sqrt (d i))⁻¹) * V) := by
    rw [hsem0.1, hT0]
  -- the inverse branch
  have hrw1 : ∀ i : Fin n, d i ^ (-1 : ℝ) = (d i)⁻¹ :=
    fun i => rpow_neg_one_eq (hd0 i)
  have hndI : ∀ mu,
      (IsEigOf (Vᵀ * Matrix.diagonal (fun i => d i ^ (-1 : ℝ)) * V) mu ∨
        (n < n ∧ ∃ i, mu = d i ^ (-1 : ℝ))) → ¬ closeZero mu := by
    intro mu hmu
    have hmu2 : ∃ j, mu = (d j)⁻¹ := by
      rcases hmu with h1 | ⟨hlt, _⟩
      · rw [diag_congr hrw1] at h1
        exact isEigOf_sandwich_orth hV1 hV2 h1
      · exact absurd hlt (lt_irrefl n)
    obtain ⟨j, hj⟩ := hmu2
    rw [hj]
    exact not_closeZero_of_gt
      (inv_gt_small (hd0 j) (lt_trans (hhigh j) (by norm_num)))
  have hsemI := powRel_sem (A := ⟨n, m, d, V⟩) (p := -1) hV2 hd0 hinv hndI
  have hcovI : inv.covM = Vᵀ * Matrix.diagonal (fun i => (d i)⁻¹) * V := by
    rw [hsemI.2.1, diag_congr hrw1]
  have hTI : powTransform (⟨n, m, d, V⟩ : Mv n) (-1) =
      Vᵀ * Matrix.diagonal (fun i => (d i)⁻¹) * V :=
    powTransform_eq _ (-1) _ (fun i => by
      rw [show ((-1 : ℝ) - 1) / 2 = (-1 : ℝ) by norm_num]
      exact hrw1 i)
  have hmeanI : inv.mean =
      Matrix.vecMul m (Vᵀ * Matrix.diagonal (fun i => (d i)⁻¹) * V) := by
    rw [hsemI.1, hTI]
  have hvarI : ∀ q, ∃ j, inv.var q = (d j)⁻¹ := by
    intro q
    rcases hsemI.2.2.1 q with h1 | ⟨hlt, _⟩
    · rw [diag_congr hrw1] at h1
      exact isEigOf_sandwich_orth hV1 hV2 h1
    · exact absurd hlt (lt_irrefl n)
  have hvarI0 : ∀ q, 0 ≤ inv.var q := by
    intro q
    obtain ⟨j, hj⟩ := hvarI q
    rw [hj]
    exact (inv_pos.mpr (hd0 j)).le
  have hkI : inv.k = n := hsemI.2.2.2 (le_refl n) hne
  -- the product branch
  have hTA : Mv.transform (⟨n, m, d, V⟩ : Mv n) =
      Vᵀ * Matrix.diagonal (fun i => Real.sqrt (d i)) * V := rfl
  have hGram1 : (scaledOf (fun _ => (1 : ℝ))
      (inv.scaled * Mv.transform (⟨n, m, d, V⟩ : Mv n)))ᵀ *
      scaledOf (fun _ => (1 : ℝ))
        (inv.scaled * Mv.transform (⟨n, m, d, V⟩ : Mv n)) = 1 := by
    rw [scaledOf_ones, gram_of_mul]
    have hSS : inv.scaledᵀ * inv.scaled = inv.covM := by
      show (scaledOf inv.var inv.vectors)ᵀ * scaledOf inv.var inv.vectors = _
      exact scaled_gram inv.var inv.vectors hvarI0
    rw [hSS, hcovI, hTA, sandwich_transpose]
    rw [sandwich_mul V hV2, sandwich_mul V hV2]
    have hentry : ∀ i : Fin n,
        Real.sqrt (d i) * (d i)⁻¹ * Real.sqrt (d i) = 1 := by
      intro i
      have h1 : Real.sqrt (d i) * Real.sqrt (d i) = d i :=
        Real.mul_self_sqrt (hd0 i).le
      calc Real.sqrt (d i) * (d i)⁻¹ * Real.sqrt (d i)
          = Real.sqrt (d i) * Real.sqrt (d i) * (d i)⁻¹ := by ring
        _ = d i * (d i)⁻¹ := by rw [h1]
        _ = 1 := mul_inv_cancel₀ (hd0 i).ne'
    rw [diag_congr hentry, Matrix.diagonal_one, Matrix.mul_one, hV1]
  have hpos1 : inv.k < n → ∀ p, 0 <
      (scaledOf (fun _ => (1 : ℝ))
        (inv.scaled * Mv.transform (⟨n, m, d, V⟩ : Mv n)) *
      (scaledOf (fun _ => (1 : ℝ))
        (inv.scaled * Mv.transform (⟨n, m, d, V⟩ : Mv n)))ᵀ) p p := by
    intro hlt
    rw [hkI] at hlt
    exact absurd hlt (lt_irrefl n)
  have hnd1 : ∀ mu,
      (IsEigOf ((scaledOf (fun _ => (1 : ℝ))
          (inv.scaled * Mv.transform (⟨n, m, d, V⟩ : Mv n)))ᵀ *
        scaledOf (fun _ => (1 : ℝ))
          (inv.scaled * Mv.transform (⟨n, m, d, V⟩ : Mv n))) mu ∨
        (inv.k < n ∧ ∃ i, mu =
          (scaledOf (fun _ => (1 : ℝ))
            (inv.scaled * Mv.transform (⟨n, m, d, V⟩ : Mv n)) *
          (scaledOf (fun _ => (1 : ℝ))
            (inv.scaled * Mv.transform (⟨n, m, d, V⟩ : Mv n)))ᵀ) i i)) →
      ¬ closeZero mu := by
    intro mu hmu
    have h1 : mu = 1 := by
      rcases hmu with h1 | ⟨hlt, _⟩
      · rw [hGram1] at h1
        exact isEigOf_one h1
      · rw [hkI] at hlt
        exact absurd hlt (lt_irrefl n)
    rw [h1]
    exact not_closeZero_of_gt (by norm_num)
  have hsem1 := constructRel_sem hmul hpos1 hnd1
  have hcov1 : out1.covM = 1 := by
    rw [hsem1.2.1, hGram1]
  have hmean1 : out1.mean =
      Matrix.vecMul m (Vᵀ * Matrix.diagonal (fun i => (Real.sqrt (d i))⁻¹) * V) := by
    rw [hsem1.1, hmeanI, Matrix.vecMul_vecMul, hTA, sandwich_mul V hV2]
    have hentry : ∀ i : Fin n,
        (d i)⁻¹ * Real.sqrt (d i) = (Real.sqrt (d i))⁻¹ := by
      intro i
      have h1 : Real.sqrt (d i) * Real.sqrt (d i) = d i :=
        Real.mul_self_sqrt (hd0 i).le
      have hs : Real.sqrt (d i) ≠ 0 := (Real.sqrt_pos.mpr (hd0 i)).ne'
      calc (d i)⁻¹ * Real.sqrt (d i)
          = (Real.sqrt (d i) * Real.sqrt (d i))⁻¹ * Real.sqrt (d i) := by
            rw [h1]
        _ = (Real.sqrt (d i))⁻¹ * ((Real.sqrt (d i))⁻¹ * Real.sqrt (d i)) := by
            rw [mul_inv]
            ring
        _ = (Real.sqrt (d i))⁻¹ := by
            rw [inv_mul_cancel₀ hs, mul_one]
    rw [diag_congr hentry]
  exact ⟨by rw [hmean0, hmean1], by rw [hcov0, hcov1], hcov0⟩

/-- Witness for C3: a concrete run on the one-dimensional distribution
with mean 3 and variance 4; A ** 0 and A ** -1 * A both give unit
covariance and mean 3 / 2. -/
theorem C3_pow_zero_eq_inv_mul_witness :
    PowRel (⟨1, ![3], ![4], 1⟩ : Mv 1) 0 ⟨1, ![3 / 2], ![1], 1⟩ ∧
    PowRel (⟨1, ![3], ![4], 1⟩ : Mv 1) (-1) ⟨1, ![3 / 4], ![1 / 4], 1⟩ ∧
    MulMvarRel (⟨1, ![3 / 4], ![1 / 4], 1⟩ : Mv 1) ⟨1, ![3], ![4], 1⟩
      ⟨1, ![3 / 2], ![1], 1⟩ ∧
    Mv.mean (⟨1, ![3 / 2], ![1], 1⟩ : Mv 1) = ![3 / 2] ∧
    Mv.covM (⟨1, ![3 / 2], ![1], 1⟩ : Mv 1) = 1 := by
  have hsqrt4 : Real.sqrt 4 = 2 := by
    rw [show (4 : ℝ) = 2 ^ 2 by norm_num, Real.sqrt_sq (by norm_num)]
  have hsqrtq : Real.sqrt (1 / 4) = 1 / 2 := by
    rw [show (1 / 4 : ℝ) = (1 / 2) ^ 2 by norm_num,
      Real.sqrt_sq (by norm_num)]
  have hsc : (⟨1, ![3], ![4], 1⟩ : Mv 1).scaled =
      Matrix.diagonal (fun _ : Fin 1 => (2 : ℝ)) := by
    show scaledOf ![4] 1 = _
    unfold scaledOf
    rw [Matrix.mul_one]
    refine diag_congr fun i => ?_
    have hi : i = 0 := Subsingleton.elim i 0
    subst hi
    show Real.sqrt ((![4] : Fin 1 → ℝ) 0) = 2
    rw [show (![4] : Fin 1 → ℝ) 0 = (4 : ℝ) from rfl, hsqrt4]
  -- the zero-power run
  have hT0 : powTransform (⟨1, ![3], ![4], 1⟩ : Mv 1) 0 =
      Matrix.diagonal (fun _ : Fin 1 => (1 / 2 : ℝ)) := by
    show (1 : Matrix (Fin 1) (Fin 1) ℝ)ᵀ * Matrix.diagonal _ * 1 = _
    rw [Matrix.transpose_one, Matrix.one_mul, Matrix.mul_one]
    refine diag_congr fun i => ?_
    have hi : i = 0 := Subsingleton.elim i 0
    subst hi
    show (![4] : Fin 1 → ℝ) 0 ^ (((0 : ℝ) - 1) / 2) = (1 / 2 : ℝ)
    rw [show (![4] : Fin 1 → ℝ) 0 = (4 : ℝ) from rfl,
      show ((0 : ℝ) - 1) / 2 = -(1 / 2 : ℝ) by norm_num,
      Real.rpow_neg (by norm_num), ← Real.sqrt_eq_rpow, hsqrt4]
    norm_num
  have hX0 : ((⟨1, ![3], ![4], 1⟩ : Mv 1).scaled *
      powTransform (⟨1, ![3], ![4], 1⟩ : Mv 1) 0) 0 0 = 1 := by
    rw [entry_one_mul, hT0, hsc, Matrix.diagonal_apply_eq,
      Matrix.diagonal_apply_eq]
    norm_num
  have hmean0 : Matrix.vecMul (⟨1, ![3], ![4], 1⟩ : Mv 1).mean
      (powTransform (⟨1, ![3], ![4], 1⟩ : Mv 1) 0) = ![3 / 2] := by
    rw [hT0]
    funext j
    have hj : j = 0 := Subsingleton.elim j 0
    subst hj
    show ∑ i, (![3] : Fin 1 → ℝ) i *
      Matrix.diagonal (fun _ : Fin 1 => (1 / 2 : ℝ)) i 0 = 3 / 2
    rw [Fin.sum_univ_one, Matrix.diagonal_apply_eq]
    norm_num
  have hrun0 : PowRel (⟨1, ![3], ![4], 1⟩ : Mv 1) 0 ⟨1, ![3 / 2], ![1], 1⟩ := by
    have h1 := constructRel_one
      ((⟨1, ![3], ![4], 1⟩ : Mv 1).scaled *
        powTransform (⟨1, ![3], ![4], 1⟩ : Mv 1) 0)
      (Matrix.vecMul (⟨1, ![3], ![4], 1⟩ : Mv 1).mean
        (powTransform (⟨1, ![3], ![4], 1⟩ : Mv 1) 0))
      (by
        rw [hX0]
        exact not_closeZero_of_gt (by norm_num))
    have heq :
        (⟨1, Matrix.vecMul (⟨1, ![3], ![4], 1⟩ : Mv 1).mean
          (powTransform (⟨1, ![3], ![4], 1⟩ : Mv 1) 0),
          fun _ => ((⟨1, ![3], ![4], 1⟩ : Mv 1).scaled *
            powTransform (⟨1, ![3], ![4], 1⟩ : Mv 1) 0) 0 0 *
            ((⟨1, ![3], ![4], 1⟩ : Mv 1).scaled *
            powTransform (⟨1, ![3], ![4], 1⟩ : Mv 1) 0) 0 0, 1⟩ : Mv 1) =
        ⟨1, ![3 / 2], ![1], 1⟩ := by
      refine mv_one_ext hmean0 ?_ rfl
      refine fun_one_ext ?_
      rw [hX0]
      norm_num
    rw [heq] at h1
    exact h1
  -- the inverse run
  have hT1 : powTransform (⟨1, ![3], ![4], 1⟩ : Mv 1) (-1) =
      Matrix.diagonal (fun _ : Fin 1 => (4 : ℝ)⁻¹) := by
    show (1 : Matrix (Fin 1) (Fin 1) ℝ)ᵀ * Matrix.diagonal _ * 1 = _
    rw [Matrix.transpose_one, Matrix.one_mul, Matrix.mul_one]
    refine diag_congr fun i => ?_
    have hi : i = 0 := Subsingleton.elim i 0
    subst hi
    show (![4] : Fin 1 → ℝ) 0 ^ (((-1 : ℝ) - 1) / 2) = (4 : ℝ)⁻¹
    rw [show (![4] : Fin 1 → ℝ) 0 = (4 : ℝ) from rfl,
      show ((-1 : ℝ) - 1) / 2 = (-1 : ℝ) by norm_num,
      rpow_neg_one_eq (by norm_num)]
  have hX1 : ((⟨1, ![3], ![4], 1⟩ : Mv 1).scaled *
      powTransform (⟨1, ![3], ![4], 1⟩ : Mv 1) (-1)) 0 0 = 1 / 2 := by
    rw [entry_one_mul, hT1, hsc, Matrix.diagonal_apply_eq,
      Matrix.diagonal_apply_eq]
    norm_num
  have hmean1 : Matrix.vecMul (⟨1, ![3], ![4], 1⟩ : Mv 1).mean
      (powTransform (⟨1, ![3], ![4], 1⟩ : Mv 1) (-1)) = ![3 / 4] := by
    rw [hT1]
    funext j
    have hj : j = 0 := Subsingleton.elim j 0
    subst hj
    show ∑ i, (![3] : Fin 1 → ℝ) i *
      Matrix.diagonal (fun _ : Fin 1 => (4 : ℝ)⁻¹) i 0 = 3 / 4
    rw [Fin.sum_univ_one, Matrix.diagonal_apply_eq]
    norm_num
  have hrunI : PowRel (⟨1, ![3], ![4], 1⟩ : Mv 1) (-1)
      ⟨1, ![3 / 4], ![1 / 4], 1⟩ := by
    have h1 := constructRel_one
      ((⟨1, ![3], ![4], 1⟩ : Mv 1).scaled *
        powTransform (⟨1, ![3], ![4], 1⟩ : Mv 1) (-1))
      (Matrix.vecMul (⟨1, ![3], ![4], 1⟩ : Mv 1).mean
        (powTransform (⟨1, ![3], ![4], 1⟩ : Mv 1) (-1)))
      (by
        rw [hX1]
        exact not_closeZero_of_gt (by norm_num))
    have heq :
        (⟨1, Matrix.vecMul (⟨1, ![3], ![4], 1⟩ : Mv 1).mean
          (powTransform (⟨1, ![3], ![4], 1⟩ : Mv 1) (-1)),
          fun _ => ((⟨1, ![3], ![4], 1⟩ : Mv 1).scaled *
            powTransform (⟨1, ![3], ![4], 1⟩ : Mv 1) (-1)) 0 0 *
            ((⟨1, ![3], ![4], 1⟩ : Mv 1).scaled *
            powTransform (⟨1, ![3], ![4], 1⟩ : Mv 1) (-1)) 0 0, 1⟩ : Mv 1) =
        ⟨1, ![3 / 4], ![1 / 4], 1⟩ := by
      refine mv_one_ext hmean1 ?_ rfl
      refine fun_one_ext ?_
      rw [hX1]
      norm_num
    rw [heq] at h1
    exact h1
  -- the product run
  have hTA : Mv.transform (⟨1, ![3], ![4], 1⟩ : Mv 1) =
      Matrix.diagonal (fun _ : Fin 1 => (2 : ℝ)) := by
    show (1 : Matrix (Fin 1) (Fin 1) ℝ)ᵀ * Matrix.diagonal _ * 1 = _
    rw [Matrix.transpose_one, Matrix.one_mul, Matrix.mul_one]
    refine diag_congr fun i => ?_
    have hi : i = 0 := Subsingleton.elim i 0
    subst hi
    show Real.sqrt ((![4] : Fin 1 → ℝ) 0) = 2
    rw [show (![4] : Fin 1 → ℝ) 0 = (4 : ℝ) from rfl, hsqrt4]
  have hscI : (⟨1, ![3 / 4], ![1 / 4], 1⟩ : Mv 1).scaled =
      Matrix.diagonal (fun _ : Fin 1 => (1 / 2 : ℝ)) := by
    show scaledOf ![1 / 4] 1 = _
    unfold scaledOf
    rw [Matrix.mul_one]
    refine diag_congr fun i => ?_
    have hi : i = 0 := Subsingleton.elim i 0
    subst hi
    show Real.sqrt ((![1 / 4] : Fin 1 → ℝ) 0) = 1 / 2
    rw [show (![1 / 4] : Fin 1 → ℝ) 0 = (1 / 4 : ℝ) from rfl, hsqrtq]
  have hXA : ((⟨1, ![3 / 4], ![1 / 4], 1⟩ : Mv 1).scaled *
      Mv.transform (⟨1, ![3], ![4], 1⟩ : Mv 1)) 0 0 = 1 := by
    rw [entry_one_mul, hTA, hscI, Matrix.diagonal_apply_eq,
      Matrix.diagonal_apply_eq]
    norm_num
  have hmeanA : Matrix.vecMul (⟨1, ![3 / 4], ![1 / 4], 1⟩ : Mv 1).mean
      (Mv.transform (⟨1, ![3], ![4], 1⟩ : Mv 1)) = ![3 / 2] := by
    rw [hTA]
    funext j
    have hj : j = 0 := Subsingleton.elim j 0
    subst hj
    show ∑ i, (![3 / 4] : Fin 1 → ℝ) i *
      Matrix.diagonal (fun _ : Fin 1 => (2 : ℝ)) i 0 = 3 / 2
    rw [Fin.sum_univ_one, Matrix.diagonal_apply_eq]
    norm_num
  have hrunM : MulMvarRel (⟨1, ![3 / 4], ![1 / 4], 1⟩ : Mv 1)
      ⟨1, ![3], ![4], 1⟩ ⟨1, ![3 / 2], ![1], 1⟩ := by
    have h1 := constructRel_one
      ((⟨1, ![3 / 4], ![1 / 4], 1⟩ : Mv 1).scaled *
        Mv.transform (⟨1, ![3], ![4], 1⟩ : Mv 1))
      (Matrix.vecMul (⟨1, ![3 / 4], ![1 / 4], 1⟩ : Mv 1).mean
        (Mv.transform (⟨1, ![3], ![4], 1⟩ : Mv 1)))
      (by
        rw [hXA]
        exact not_closeZero_of_gt (by norm_num))
    have heq :
        (⟨1, Matrix.vecMul (⟨1, ![3 / 4], ![1 / 4], 1⟩ : Mv 1).mean
          (Mv.transform (⟨1, ![3], ![4], 1⟩ : Mv 1)),
          fun _ => ((⟨1, ![3 / 4], ![1 / 4], 1⟩ : Mv 1).scaled *
            Mv.transform (⟨1, ![3], ![4], 1⟩ : Mv 1)) 0 0 *
            ((⟨1, ![3 / 4], ![1 / 4], 1⟩ : Mv 1).scaled *
            Mv.transform (⟨1, ![3], ![4], 1⟩ : Mv 1)) 0 0, 1⟩ : Mv 1) =
        ⟨1, ![3 / 2], ![1], 1⟩ := by
      refine mv_one_ext hmeanA ?_ rfl
      refine fun_one_ext ?_
      rw [hXA]
      norm_num
    rw [heq] at h1
    exact h1
  have hconc := C3_pow_zero_eq_inv_mul ![3] ![4] 1
    (by rw [Matrix.transpose_one, Matrix.one_mul])
    (by rw [Matrix.transpose_one, Matrix.one_mul])
    (fun i => by
      have hi : i = 0 := Subsingleton.elim i 0
      subst hi
      norm_num)
    (fun i => by
      have hi : i = 0 := Subsingleton.elim i 0
      subst hi
      norm_num)
    ⟨1, ![3 / 2], ![1], 1⟩ ⟨1, ![3 / 2], ![1], 1⟩ ⟨1, ![3 / 4], ![1 / 4], 1⟩
    hrun0 hrunI hrunM
  exact ⟨hrun0, hrunI, hrunM, rfl, hconc.2.2⟩

/-! ### Claim C1 -/

/-- The concrete 2 x 5-free generating matrix exhibiting the reduced-rank
path of square: two rows, three columns, rows of squared norms 41 and 34,
with the eigenvalues of the 2 x 2 Gram matrix being 25 and 50. -/
def C1V : Matrix (Fin 2) (Fin 3) ℝ := !![4, 5, 0; 3, 0, 5]

lemma C1_gram : C1V * C1Vᵀ = !![41, 12; 12, 34] := by
  ext i j
  rw [Matrix.mul_apply, Fin.sum_univ_three]
  fin_cases i <;> fin_cases j <;>
    simp [C1V, Matrix.transpose_apply] <;> norm_num

/-- C1 (code bug): on the reduced-rank path the code stores the diagonal
entries of the small Gram matrix as the variances and rescales by them
(the computed eigenvalues Xval are discarded), so the returned vectors
are not row-orthonormal: for the concrete generating matrix C1V, every
run of square returns a vector matrix with vec * vec.H different from
the identity, contradicting the orthonormal-output contract of the
claim. -/
theorem C1_square_reduced_not_orthonormal (out : SqOut 3)
    (h : SquareRel C1V (fun _ => 1) out) : out.vec * out.vecᵀ ≠ 1 := by
  unfold SquareRel at h
  rw [if_neg (by norm_num), if_neg (by norm_num)] at h
  obtain ⟨val, U, hS, rfl⟩ := h
  have hE : IsEigh (C1V * C1Vᵀ) val U := by
    have h1 := solverRel_ones hS
    rwa [Matrix.diagonal_one, Matrix.one_mul] at h1
  have hdetU : U.det * U.det = 1 := by
    have h1 : (Uᵀ * U).det = (1 : Matrix (Fin 2) (Fin 2) ℝ).det := by
      rw [hE.1]
    rw [Matrix.det_mul, Matrix.det_transpose, Matrix.det_one] at h1
    exact h1
  have hdet : val 0 * val 1 = 1250 := by
    have h1 : (C1V * C1Vᵀ).det = U.det * (val 0 * val 1) * U.det := by
      rw [hE.2, Matrix.det_mul, Matrix.det_mul, Matrix.det_transpose,
        Matrix.det_diagonal, Fin.prod_univ_two]
    have h2 : (C1V * C1Vᵀ).det = 1250 := by
      rw [C1_gram, Matrix.det_fin_two_of]
      norm_num
    have h3 : U.det * (val 0 * val 1) * U.det =
        (U.det * U.det) * (val 0 * val 1) := by ring
    rw [h1, h3, hdetU, one_mul] at h2
    exact h2
  intro hcontra
  -- row norms of the returned vectors
  set W : Matrix (Fin 2) (Fin 3) ℝ :=
    Matrix.diagonal (fun _ : Fin 2 => (1 : ℝ)) * C1V with hW
  have hWV : W = C1V := by
    rw [hW, Matrix.diagonal_one, Matrix.one_mul]
  have hd : ∀ i, (W * C1Vᵀ) i i = (C1V * C1Vᵀ) i i := by
    intro i
    rw [hWV]
  have hvec : (squareReducedOut C1V (fun _ => 1) U).vec =
      Matrix.diagonal (fun i => (Real.sqrt ((C1V * C1Vᵀ) i i))⁻¹) *
        (Uᵀ * C1V) := by
    show (Matrix.of fun i j =>
        (Real.sqrt ((W * C1Vᵀ) i i))⁻¹ * ((Uᵀ * W) i j)) = _
    rw [hWV]
    ext i j
    rw [Matrix.of_apply, Matrix.diagonal_mul]
  have hMMT : (Uᵀ * C1V) * (Uᵀ * C1V)ᵀ = Matrix.diagonal val := by
    rw [Matrix.transpose_mul, Matrix.transpose_transpose]
    have h1 : Uᵀ * C1V * (C1Vᵀ * U) = Uᵀ * (C1V * C1Vᵀ) * U := by
      simp only [Matrix.mul_assoc]
    rw [h1, hE.2]
    calc Uᵀ * (U * Matrix.diagonal val * Uᵀ) * U
        = (Uᵀ * U) * Matrix.diagonal val * (Uᵀ * U) := by
          simp only [Matrix.mul_assoc]
      _ = Matrix.diagonal val := by
          rw [hE.1, Matrix.one_mul, Matrix.mul_one]
  have hBB : (squareReducedOut C1V (fun _ => 1) U).vec *
      (squareReducedOut C1V (fun _ => 1) U).vecᵀ =
      Matrix.diagonal (fun i =>
        (Real.sqrt ((C1V * C1Vᵀ) i i))⁻¹ * val i *
          (Real.sqrt ((C1V * C1Vᵀ) i i))⁻¹) := by
    rw [hvec, Matrix.transpose_mul, Matrix.diagonal_transpose]
    calc Matrix.diagonal (fun i => (Real.sqrt ((C1V * C1Vᵀ) i i))⁻¹) *
          (Uᵀ * C1V) * ((Uᵀ * C1V)ᵀ *
          Matrix.diagonal (fun i => (Real.sqrt ((C1V * C1Vᵀ) i i))⁻¹))
        = Matrix.diagonal (fun i => (Real.sqrt ((C1V * C1Vᵀ) i i))⁻¹) *
          ((Uᵀ * C1V) * (Uᵀ * C1V)ᵀ) *
          Matrix.diagonal (fun i => (Real.sqrt ((C1V * C1Vᵀ) i i))⁻¹) := by
          simp only [Matrix.mul_assoc]
      _ = Matrix.diagonal (fun i => (Real.sqrt ((C1V * C1Vᵀ) i i))⁻¹) *
          Matrix.diagonal val *
          Matrix.diagonal (fun i => (Real.sqrt ((C1V * C1Vᵀ) i i))⁻¹) := by
          rw [hMMT]
      _ = _ := by
          rw [Matrix.diagonal_mul_diagonal, Matrix.diagonal_mul_diagonal]
  have hd0 : (C1V * C1Vᵀ) 0 0 = 41 := by rw [C1_gram]; norm_num
  have hd1 : (C1V * C1Vᵀ) 1 1 = 34 := by rw [C1_gram]; norm_num
  have hsq41 : Real.sqrt 41 * Real.sqrt 41 = 41 :=
    Real.mul_self_sqrt (by norm_num)
  have hsq34 : Real.sqrt 34 * Real.sqrt 34 = 34 :=
    Real.mul_self_sqrt (by norm_num)
  have h41 : Real.sqrt 41 ≠ 0 := by
    intro hc
    rw [hc, mul_zero] at hsq41
    norm_num at hsq41
  have h34 : Real.sqrt 34 ≠ 0 := by
    intro hc
    rw [hc, mul_zero] at hsq34
    norm_num at hsq34
  have hdiag : Matrix.diagonal (fun i : Fin 2 =>
      (Real.sqrt ((C1V * C1Vᵀ) i i))⁻¹ * val i *
        (Real.sqrt ((C1V * C1Vᵀ) i i))⁻¹) = (1 : Matrix (Fin 2) (Fin 2) ℝ) :=
    hBB.symm.trans hcontra
  have hv0 : val 0 = 41 := by
    have h1 := congrFun (congrFun hdiag 0) 0
    rw [Matrix.diagonal_apply_eq, Matrix.one_apply_eq, hd0] at h1
    have h2 : val 0 = Real.sqrt 41 * Real.sqrt 41 := by
      field_simp at h1
      linarith
    rw [h2, hsq41]
  have hv1 : val 1 = 34 := by
    have h1 := congrFun (congrFun hdiag 1) 1
    rw [Matrix.diagonal_apply_eq, Matrix.one_apply_eq, hd1] at h1
    have h2 : val 1 = Real.sqrt 34 * Real.sqrt 34 := by
      field_simp at h1
      linarith
    rw [h2, hsq34]
  rw [hv0, hv1] at hdet
  norm_num at hdet

/-- Witness for C1: the concrete rational eigendecomposition of the 2 x 2
Gram matrix of C1V (eigenvalues 25 and 50, rotation by the 3-4-5 angle)
yields a run of square whose output vectors are not row-orthonormal. -/
theorem C1_square_reduced_not_orthonormal_witness :
    SquareRel C1V (fun _ => 1)
      (squareReducedOut C1V (fun _ => 1) !![3/5, 4/5; -4/5, 3/5]) ∧
    (squareReducedOut C1V (fun _ => 1) !![3/5, 4/5; -4/5, 3/5]).vec *
      (squareReducedOut C1V (fun _ => 1) !![3/5, 4/5; -4/5, 3/5]).vecᵀ ≠ 1 := by
  have hrun : SquareRel C1V (fun _ => 1)
      (squareReducedOut C1V (fun _ => 1) !![3/5, 4/5; -4/5, 3/5]) := by
    unfold SquareRel
    rw [if_neg (by norm_num), if_neg (by norm_num)]
    refine ⟨![25, 50], !![3/5, 4/5; -4/5, 3/5],
      ⟨fun _ => ⟨?_, ?_⟩, fun hc => absurd varAbsClose_ones hc⟩, rfl⟩
    · ext i j
      rw [Matrix.mul_apply, Fin.sum_univ_two]
      fin_cases i <;> fin_cases j <;>
        simp [Matrix.transpose_apply, Matrix.one_apply] <;> norm_num
    · rw [Matrix.diagonal_one, Matrix.one_mul, C1_gram]
      ext i j
      rw [Matrix.mul_apply, Fin.sum_univ_two]
      fin_cases i <;> fin_cases j <;>
        simp [Matrix.mul_diagonal, Matrix.transpose_apply] <;> norm_num
  exact ⟨hrun, C1_square_reduced_not_orthonormal _ hrun⟩

/-! ### Claim C4 -/

/-- Shared concrete run for C4: multiplying the standard one-dimensional
distribution by the 1 x 1 matrix 2 produces stored variance 4 and stored
vectors equal to the identity, not to scaled * M. -/
lemma c4_concrete_run : MulMatRel (⟨1, ![0], ![1], 1⟩ : Mv 1) !![(2 : ℝ)]
    ⟨1, ![0], ![4], 1⟩ := by
  have hsc : (⟨1, ![0], ![1], 1⟩ : Mv 1).scaled = 1 := by
    show scaledOf ![1] 1 = 1
    unfold scaledOf
    rw [Matrix.mul_one]
    rw [show Matrix.diagonal (fun i => Real.sqrt ((![1] : Fin 1 → ℝ) i)) =
        Matrix.diagonal (fun _ : Fin 1 => (1 : ℝ)) from
      diag_congr fun i => by
        have hi : i = 0 := Subsingleton.elim i 0
        subst hi
        show Real.sqrt ((![1] : Fin 1 → ℝ) 0) = 1
        rw [show (![1] : Fin 1 → ℝ) 0 = (1 : ℝ) from rfl, Real.sqrt_one],
      Matrix.diagonal_one]
  have hX : ((⟨1, ![0], ![1], 1⟩ : Mv 1).scaled * !![(2 : ℝ)]) 0 0 = 2 := by
    rw [entry_one_mul, hsc]
    norm_num [Matrix.one_apply]
  have h1 := constructRel_one
    ((⟨1, ![0], ![1], 1⟩ : Mv 1).scaled * !![(2 : ℝ)])
    (Matrix.vecMul (⟨1, ![0], ![1], 1⟩ : Mv 1).mean !![(2 : ℝ)])
    (by
      rw [hX]
      exact not_closeZero_of_gt (by norm_num))
  have heq :
      (⟨1, Matrix.vecMul (⟨1, ![0], ![1], 1⟩ : Mv 1).mean !![(2 : ℝ)],
        fun _ => ((⟨1, ![0], ![1], 1⟩ : Mv 1).scaled * !![(2 : ℝ)]) 0 0 *
          ((⟨1, ![0], ![1], 1⟩ : Mv 1).scaled * !![(2 : ℝ)]) 0 0,
        1⟩ : Mv 1) = ⟨1, ![0], ![4], 1⟩ := by
    refine mv_one_ext ?_ ?_ rfl
    · funext j
      have hj : j = 0 := Subsingleton.elim j 0
      subst hj
      show ∑ i, (![0] : Fin 1 → ℝ) i * !![(2 : ℝ)] i 0 = 0
      rw [Fin.sum_univ_one]
      norm_num
    · refine fun_one_ext ?_
      rw [hX]
      norm_num
  rw [heq] at h1
  exact h1

/-- Counterexample for C4: in the run above the stored vectors of the
product equal the identity, not scaled * M (whose sole entry is 2); the
constructor applied a square pass to the result, contradicting the claim
that the (var, vectors) representation of an Mvar-times-matrix product
is not re-orthonormalized. -/
theorem C4_mul_matrix_counterexample :
    MulMatRel (⟨1, ![0], ![1], 1⟩ : Mv 1) !![(2 : ℝ)] ⟨1, ![0], ![4], 1⟩ ∧
    Mv.vectors (⟨1, ![0], ![4], 1⟩ : Mv 1) ≠
      (⟨1, ![0], ![1], 1⟩ : Mv 1).scaled * !![(2 : ℝ)] := by
  refine ⟨c4_concrete_run, fun hc => ?_⟩
  have hsc : (⟨1, ![0], ![1], 1⟩ : Mv 1).scaled = 1 := by
    show scaledOf ![1] 1 = 1
    unfold scaledOf
    rw [Matrix.mul_one]
    rw [show Matrix.diagonal (fun i => Real.sqrt ((![1] : Fin 1 → ℝ) i)) =
        Matrix.diagonal (fun _ : Fin 1 => (1 : ℝ)) from
      diag_congr fun i => by
        have hi : i = 0 := Subsingleton.elim i 0
        subst hi
        show Real.sqrt ((![1] : Fin 1 → ℝ) 0) = 1
        rw [show (![1] : Fin 1 → ℝ) 0 = (1 : ℝ) from rfl, Real.sqrt_one],
      Matrix.diagonal_one]
  have h1 := congrFun (congrFun hc 0) 0
  rw [entry_one_mul, hsc] at h1
  norm_num [Matrix.one_apply] at h1

/-- C4 amended: for every distribution A and compatible matrix M, the
product A * M is constructed from mean A.mean * M and vectors
A.scaled * M with all-ones variances, and the constructor runs square
and compress on it; under the solver contract and the no-drop conditions
the result has mean A.mean * M and covariance
(A.scaled * M).H * (A.scaled * M), stored in re-orthonormalized form. -/
theorem C4_mul_matrix_amended {n n2 : ℕ} (A : Mv n)
    (M : Matrix (Fin n) (Fin n2) ℝ) (out : Mv n2)
    (h : MulMatRel A M out)
    (hpos : A.k < n2 → ∀ i, 0 < ((A.scaled * M) * (A.scaled * M)ᵀ) i i)
    (hnd : ∀ mu, (IsEigOf ((A.scaled * M)ᵀ * (A.scaled * M)) mu ∨
        (A.k < n2 ∧ ∃ i, mu = ((A.scaled * M) * (A.scaled * M)ᵀ) i i)) →
        ¬ closeZero mu) :
    out.mean = Matrix.vecMul A.mean M ∧
    out.covM = (A.scaled * M)ᵀ * (A.scaled * M) := by
  have hsem := constructRel_sem h
    (fun hlt i => by
      rw [scaledOf_ones]
      exact hpos hlt i)
    (fun mu hmu => by
      refine hnd mu ?_
      rcases hmu with h1 | ⟨hlt, i, h1⟩
      · rw [scaledOf_ones] at h1
        exact Or.inl h1
      · rw [scaledOf_ones] at h1
        exact Or.inr ⟨hlt, i, h1⟩)
  refine ⟨hsem.1, ?_⟩
  rw [hsem.2.1, scaledOf_ones]

/-- Witness for C4 amended, at the concrete run used in the
counterexample: the product has mean 0 and covariance 4. -/
theorem C4_mul_matrix_amended_witness :
    Mv.mean (⟨1, ![0], ![4], 1⟩ : Mv 1) =
      Matrix.vecMul (Mv.mean (⟨1, ![0], ![1], 1⟩ : Mv 1)) !![(2 : ℝ)] ∧
    Mv.covM (⟨1, ![0], ![4], 1⟩ : Mv 1) =
      ((⟨1, ![0], ![1], 1⟩ : Mv 1).scaled * !![(2 : ℝ)])ᵀ *
        ((⟨1, ![0], ![1], 1⟩ : Mv 1).scaled * !![(2 : ℝ)]) := by
  have hsc : (⟨1, ![0], ![1], 1⟩ : Mv 1).scaled = 1 := by
    show scaledOf ![1] 1 = 1
    unfold scaledOf
    rw [Matrix.mul_one]
    rw [show Matrix.diagonal (fun i => Real.sqrt ((![1] : Fin 1 → ℝ) i)) =
        Matrix.diagonal (fun _ : Fin 1 => (1 : ℝ)) from
      diag_congr fun i => by
        have hi : i = 0 := Subsingleton.elim i 0
        subst hi
        show Real.sqrt ((![1] : Fin 1 → ℝ) 0) = 1
        rw [show (![1] : Fin 1 → ℝ) 0 = (1 : ℝ) from rfl, Real.sqrt_one],
      Matrix.diagonal_one]
  refine C4_mul_matrix_amended _ _ _ c4_concrete_run
    (fun hlt => absurd hlt (by norm_num))
    (fun mu hmu => ?_)
  rcases hmu with h1 | ⟨hlt, _⟩
  · have h2 : ((⟨1, ![0], ![1], 1⟩ : Mv 1).scaled * !![(2 : ℝ)])ᵀ *
        ((⟨1, ![0], ![1], 1⟩ : Mv 1).scaled * !![(2 : ℝ)]) =
        !![(4 : ℝ)] := by
      rw [hsc, Matrix.one_mul]
      ext i j
      have hi : i = 0 := Subsingleton.elim i 0
      have hj : j = 0 := Subsingleton.elim j 0
      subst hi
      subst hj
      rw [entry_one_mul, Matrix.transpose_apply]
      norm_num
    rw [h2] at h1
    obtain ⟨x, hx, hAx⟩ := h1
    obtain ⟨j, hj⟩ := Function.ne_iff.mp hx
    have hj0 : j = 0 := Subsingleton.elim j 0
    subst hj0
    have h3 := congrFun hAx 0
    rw [Matrix.mulVec, Matrix.dotProduct, Fin.sum_univ_one] at h3
    have h4 : (4 : ℝ) * x 0 = mu * x 0 := by
      simpa using h3
    have h5 : mu = 4 := (mul_right_cancel₀ hj h4.symm)
    rw [h5]
    exact not_closeZero_of_gt (by norm_num)
  · exact absurd hlt (by norm_num)

/-! ### Claim C5 -/

/-- Counterexample for C5: two one-dimensional distributions whose means
differ (0 versus 1e-12) but which the implemented equality accepts,
because the Matrix comparison it delegates to is tolerance-based; so
equality does not require exact mean equality. -/
theorem C5_eq_counterexample :
    MvClose (⟨1, ![0], ![1], 1⟩ : Mv 1) (⟨1, ![1e-12], ![1], 1⟩ : Mv 1) ∧
    Mv.mean (⟨1, ![0], ![1], 1⟩ : Mv 1) ≠
      Mv.mean (⟨1, ![1e-12], ![1], 1⟩ : Mv 1) := by
  refine ⟨⟨?_, matClose_refl _⟩, ?_⟩
  · intro j
    have hj : j = 0 := Subsingleton.elim j 0
    subst hj
    show rClose ((![0] : Fin 1 → ℝ) 0) ((![1e-12] : Fin 1 → ℝ) 0)
    unfold rClose
    rw [show (![0] : Fin 1 → ℝ) 0 = 0 from rfl,
      show (![1e-12] : Fin 1 → ℝ) 0 = 1e-12 from rfl, zero_sub, abs_neg,
      abs_of_nonneg (by norm_num : (0 : ℝ) ≤ 1e-12)]
    norm_num
  · intro h
    have h1 := congrFun h 0
    norm_num [Matrix.cons_val_zero] at h1

/-- C5 amended: the implemented equality is the tolerant one; exact
equality of means and of reconstructed covariances is sufficient for it,
but (per the counterexample) not necessary. -/
theorem C5_eq_amended {n : ℕ} (A B : Mv n)
    (hm : A.mean = B.mean) (hc : A.covM = B.covM) : MvClose A B := by
  refine ⟨fun j => ?_, fun i j => ?_⟩
  · rw [hm]
    unfold rClose
    rw [sub_self, abs_zero]
    positivity
  · rw [hc]
    unfold rClose
    rw [sub_self, abs_zero]
    positivity

/-- Witness for C5 amended at a concrete pair of identical
distributions. -/
theorem C5_eq_amended_witness :
    MvClose (⟨1, ![3], ![2], 1⟩ : Mv 1) (⟨1, ![3], ![2], 1⟩ : Mv 1) :=
  C5_eq_amended _ _ rfl rfl

/-! ### Claim C6 -/

/-- Shared concrete run for C6: unary plus on the distribution with
variance 1 and vectors the 1 x 1 matrix 2 squares the triple in place,
leaving the operand with variance 4 and identity vectors. -/
lemma c6_pos_run :
    PosRel (⟨1, ![7], ![1], !![2]⟩ : Mv 1) ⟨1, ![7], ![4], 1⟩ := by
  have hsc : (⟨1, ![7], ![1], !![2]⟩ : Mv 1).scaled = !![2] := by
    show scaledOf ![1] !![2] = !![2]
    unfold scaledOf
    rw [show Matrix.diagonal (fun i => Real.sqrt ((![1] : Fin 1 → ℝ) i)) =
        Matrix.diagonal (fun _ : Fin 1 => (1 : ℝ)) from
      diag_congr fun i => by
        have hi : i = 0 := Subsingleton.elim i 0
        subst hi
        show Real.sqrt ((![1] : Fin 1 → ℝ) 0) = 1
        rw [show (![1] : Fin 1 → ℝ) 0 = (1 : ℝ) from rfl, Real.sqrt_one],
      Matrix.diagonal_one, Matrix.one_mul]
  refine ⟨⟨1, fun _ => !![(2 : ℝ)] 0 0 * !![(2 : ℝ)] 0 0, 1⟩, ?_, ?_⟩
  · rw [show (⟨1, ![7], ![1], !![2]⟩ : Mv 1).scaled = !![2] from hsc]
    exact squareRel_one !![2]
  · have h4 : !![(2 : ℝ)] 0 0 * !![(2 : ℝ)] 0 0 = 4 := by
      norm_num [Matrix.cons_val_zero]
    show (⟨1, ![7], ![4], 1⟩ : Mv 1) =
      ⟨1, ![7], fun _ => !![(2 : ℝ)] 0 0 * !![(2 : ℝ)] 0 0, 1⟩
    exact (mv_one_ext rfl (fun_one_ext h4) rfl).symm

/-- Counterexample for C6: unary plus is not pure — it replaces the
operand's stored triple (variance goes from 1 to 4, vectors from the
matrix 2 to the identity) — and from_data is not pure either: centering
mutates the caller's data array (the row (1, 3) becomes (-1, 1)). -/
theorem C6_purity_counterexample :
    (PosRel (⟨1, ![7], ![1], !![2]⟩ : Mv 1) ⟨1, ![7], ![4], 1⟩ ∧
      (⟨1, ![7], ![4], 1⟩ : Mv 1) ≠ ⟨1, ![7], ![1], !![2]⟩) ∧
    fromDataCentered !![(1 : ℝ); 3] ≠ !![(1 : ℝ); 3] := by
  refine ⟨⟨c6_pos_run, fun h => ?_⟩, fun h => ?_⟩
  · have h1 := congrArg (fun A : Mv 1 => ∑ i, A.var i) h
    simp only [Fin.sum_univ_one] at h1
    norm_num [Matrix.cons_val_zero] at h1
  · have h1 := congrFun (congrFun h 0) 0
    norm_num [fromDataCentered, fromDataMean, Fin.sum_univ_two,
      Matrix.cons_val_zero, Matrix.cons_val_one, Matrix.head_cons] at h1

/-- C6 amended: the corrected frame conditions — unary plus preserves
the mean and replaces the (var, vectors) pair by a square of the scaled
matrix, so the reconstructed covariance is preserved as scaled.H *
scaled; and from_data leaves the supplied data array unchanged exactly
when every column of the data already has mean zero. -/
theorem C6_purity_amended {n N n2 : ℕ} (A : Mv n) (after : Mv n)
    (h : PosRel A after)
    (hpos : A.k < n → ∀ i, 0 < (A.scaled * A.scaledᵀ) i i)
    (data : Matrix (Fin N) (Fin n2) ℝ) :
    after.mean = A.mean ∧
    after.covM = A.scaledᵀ * A.scaled ∧
    (fromDataCentered data = data ↔ ∀ j, fromDataMean data j = 0) := by
  obtain ⟨s, hsq, rfl⟩ := h
  refine ⟨rfl, ?_, ?_, ?_⟩
  · show covOf s.var s.vec = A.scaledᵀ * A.scaled
    exact squareRel_cov hsq hpos
  · intro heq j
    rcases Nat.eq_zero_or_pos N with hN | hN
    · subst hN
      show (∑ i, data i j) / ((0 : ℕ) : ℝ) = 0
      simp
    · have h1 := congrFun (congrFun heq ⟨0, hN⟩) j
      have h2 : data ⟨0, hN⟩ j - fromDataMean data j = data ⟨0, hN⟩ j := h1
      linarith
  · intro hz
    ext i j
    show data i j - fromDataMean data j = data i j
    rw [hz j, sub_zero]

/-- Witness for C6 amended, at the concrete unary-plus run of the
counterexample and a data array whose single column already has mean
zero. -/
theorem C6_purity_amended_witness :
    Mv.mean (⟨1, ![7], ![4], 1⟩ : Mv 1) =
      Mv.mean (⟨1, ![7], ![1], !![2]⟩ : Mv 1) ∧
    Mv.covM (⟨1, ![7], ![4], 1⟩ : Mv 1) =
      (⟨1, ![7], ![1], !![2]⟩ : Mv 1).scaledᵀ *
        (⟨1, ![7], ![1], !![2]⟩ : Mv 1).scaled ∧
    (fromDataCentered !![(0 : ℝ)] = !![(0 : ℝ)] ↔
      ∀ j, fromDataMean !![(0 : ℝ)] j = 0) :=
  C6_purity_amended _ _ c6_pos_run
    (fun hlt => absurd hlt (by norm_num)) !![(0 : ℝ)]

/-! ### Claim C7 -/

/-- Concatenation of two tuples as the sum-eliminator transported along
finSumFinEquiv. -/
lemma append_eq_elim_comp {p q : ℕ} (a : Fin p → ℝ) (b : Fin q → ℝ) :
    Fin.append a b = Sum.elim a b ∘ finSumFinEquiv.symm := by
  funext i
  obtain ⟨u, rfl⟩ := finSumFinEquiv.surjective i
  rw [Function.comp_apply, Equiv.symm_apply_apply]
  rcases u with x | x
  · rw [finSumFinEquiv_apply_left, Fin.append_left, Sum.elim_inl]
  · rw [finSumFinEquiv_apply_right, Fin.append_right, Sum.elim_inr]

/-- C7: the intended semantics of Mvar.stack — concatenated mean,
concatenated per-operand variance vectors, and a reconstructed
covariance that is the block-diagonal stack of the operands'
covariances.  The shipped code cannot produce this: its variance
argument iterates `mvar.var for var in mvars`, reading the unbound name
mvar, so the call raises NameError; the definitions below model the
spec's stated intent. -/
theorem C7_stack_blockdiag {n1 n2 : ℕ} (A : Mv n1) (B : Mv n2) :
    stackMean A B = Fin.append A.mean B.mean ∧
    stackVar A B = Fin.append A.var B.var ∧
    covOf (stackVar A B) (stackVectors A B) =
      Matrix.reindex finSumFinEquiv finSumFinEquiv
        (Matrix.fromBlocks A.covM 0 0 B.covM) := by
  refine ⟨rfl, rfl, ?_⟩
  unfold covOf stackVectors stackVar
  rw [append_eq_elim_comp]
  rw [show Matrix.diagonal (Sum.elim A.var B.var ∘ finSumFinEquiv.symm) =
      (Matrix.diagonal (Sum.elim A.var B.var)).submatrix
        finSumFinEquiv.symm finSumFinEquiv.symm from
    (Matrix.submatrix_diagonal_equiv _ finSumFinEquiv.symm).symm]
  rw [Matrix.reindex_apply, Matrix.reindex_apply]
  rw [Matrix.transpose_submatrix]
  rw [Matrix.submatrix_mul_equiv, Matrix.submatrix_mul_equiv]
  have hinner :
      (Matrix.fromBlocks A.vectors 0 0 B.vectors)ᵀ *
        Matrix.diagonal (Sum.elim A.var B.var) *
        Matrix.fromBlocks A.vectors 0 0 B.vectors =
      Matrix.fromBlocks A.covM 0 0 B.covM := by
    rw [Matrix.fromBlocks_transpose, ← Matrix.fromBlocks_diagonal,
      Matrix.fromBlocks_multiply, Matrix.fromBlocks_multiply]
    simp [Mv.covM, covOf]
  rw [hinner]

/-! ### Claim C8 -/

/-- Counterexample for C8: a distribution with a single retained variance
equal to zero has no negative variance, yet sample fails on it — the
assert in the code demands strictly positive variances, so failure is not
equivalent to the presence of a negative variance. -/
theorem C8_sample_counterexample :
    (∀ i, ¬ ((![0] : Fin 1 → ℝ) i < 0)) ∧
    ∀ out : Matrix (Fin 1) (Fin 1) ℝ,
      ¬ SampleRel ![0] ![0] (1 : Matrix (Fin 1) (Fin 1) ℝ) 1 out := by
  constructor
  · intro i
    have hi : i = 0 := Subsingleton.elim i 0
    subst hi
    norm_num [Matrix.cons_val_zero]
  · rintro out ⟨hpos, h⟩
    have h0 := hpos 0
    norm_num [Matrix.cons_val_zero] at h0

/-- C8 amended: sample fails exactly when some retained variance is
nonpositive; otherwise the draw z maps through the scaled matrix and is
offset by the mean. -/
theorem C8_sample_amended {n m : ℕ} (mean : Fin n → ℝ) (var : Fin n → ℝ)
    (vectors : Matrix (Fin n) (Fin n) ℝ) (z : Matrix (Fin m) (Fin n) ℝ) :
    ((∀ out, ¬ SampleRel mean var vectors z out) ↔ ∃ i, var i ≤ 0) ∧
    ((∃ i, var i ≤ 0) ∨
      SampleRel mean var vectors z
        (z * (scaledOf var vectors)ᵀ + Matrix.of fun _ j => mean j)) := by
  have hmain : (∀ out, ¬ SampleRel mean var vectors z out) ↔
      ∃ i, var i ≤ 0 := by
    constructor
    · intro hall
      by_contra hno
      push_neg at hno
      exact hall _ ⟨fun i => hno i, rfl⟩
    · rintro ⟨i, hi⟩ out ⟨hpos, h2⟩
      exact absurd (hpos i) (not_lt.mpr hi)
  refine ⟨hmain, ?_⟩
  by_cases hex : ∃ i, var i ≤ 0
  · exact Or.inl hex
  · push_neg at hex
    exact Or.inr ⟨fun i => hex i, rfl⟩

/-! ### Claim C9 -/

/-- C9: two-run noninterference of the right operand's mean in the
distribution-times-distribution product.  The right operand enters only
through its transform, which is built from var and vectors alone, so
replacing its mean by any other value yields exactly the same set of
admissible outputs. -/
theorem C9_mul_right_mean_noninterference {n : ℕ} (A B : Mv n)
    (mu : Fin n → ℝ) (out : Mv n) :
    MulMvarRel A B out ↔ MulMvarRel A ⟨B.k, mu, B.var, B.vectors⟩ out :=
  Iff.rfl

/-! ### Claim C10 -/

/-- C10: with bias false the covariance divisor of from_data is the
sample count minus one; with exactly one sample the divisor is zero, the
centered data is the zero matrix, and the covariance expression is still
evaluated (real division is total in this model, matching numpy, which
warns rather than raises on a zero divisor), yielding the zero
matrix. -/
theorem C10_from_data_one_sample {n : ℕ} (data : Matrix (Fin 1) (Fin n) ℝ) :
    (∀ N : ℕ, fromDataDivisor false N = N - 1) ∧
    fromDataDivisor false 1 = 0 ∧
    fromDataCentered data = 0 ∧
    fromDataCov false data = 0 := by
  have hcent : fromDataCentered data = 0 := by
    ext i j
    have hi : i = 0 := Subsingleton.elim i 0
    subst hi
    show data 0 j - fromDataMean data j = 0
    unfold fromDataMean
    rw [Fin.sum_univ_one]
    norm_num
  refine ⟨fun N => rfl, rfl, hcent, ?_⟩
  unfold fromDataCov
  rw [hcent]
  simp
